import Mathlib

/-!
Verification development for the `bundle` command (wvh/bundle), a Go code
generator that packs the contents of input files into string variables or
constants of a generated Go source file.

The Go source (`main.go`) is shallowly embedded below:
* Go strings that are ranged over as runes are modelled as `List Char`;
* raw file contents and the generated output stream are modelled as
  `List Nat`, one `Nat` (< 256) per byte;
* the Unicode classification tables consulted by the Go standard library
  for code points at or above `utf8.RuneSelf` (0x80) — `unicode.IsLetter`,
  `unicode.IsDigit`, `unicode.ToTitle` and `strconv.IsPrint` — are passed
  in as a record `GoUnicode` of abstract table functions, since only their
  behaviour on concrete non-ASCII code points would depend on the Unicode
  version; everything below 0x80 is modelled concretely, exactly as the
  Go library handles ASCII without consulting the tables.
-/

/-- Abstract Unicode classification tables, consulted by the embedded code
only for code points `≥ 0x80` (`utf8.RuneSelf`), mirroring how the Go
runtime consults `unicode` package range tables there. `isPrintU` takes the
code point as a `Nat`; the identifier helpers work on `Char` runes. -/
structure GoUnicode where
  isPrintU : Nat → Bool
  isLetterU : Char → Bool
  isDigitU : Char → Bool
  toTitleU : Char → Char

/-- A trivial instantiation of the tables (classifies every non-ASCII code
point as non-letter, non-digit, non-printable, title-case-invariant).
All concrete inputs evaluated below are pure ASCII, where the embedded
code never consults the tables, so results at `asciiTables` coincide with
results at the real Unicode tables. -/
def asciiTables : GoUnicode :=
  { isPrintU := fun _ => false
    isLetterU := fun _ => false
    isDigitU := fun _ => false
    toTitleU := fun c => c }

/-- Decidable equality on `Except`, so that concrete runs of the fallible
embedded functions can be checked by evaluation. -/
instance exceptDecEq {ε α : Type} [DecidableEq ε] [DecidableEq α] :
    DecidableEq (Except ε α)
  | .error e1, .error e2 =>
    if h : e1 = e2 then .isTrue (by rw [h]) else .isFalse (by simp [h])
  | .error _, .ok _ => .isFalse (by simp)
  | .ok _, .error _ => .isFalse (by simp)
  | .ok a, .ok b =>
    if h : a = b then .isTrue (by rw [h]) else .isFalse (by simp [h])

/-- The 25 reserved Go keywords, from `var keywords` in main.go. -/
def keywords : List String :=
  ["break", "case", "chan", "const", "continue", "default", "defer",
   "else", "fallthrough", "for", "func", "go", "goto", "if", "import",
   "interface", "map", "package", "range", "return", "select", "struct",
   "switch", "type", "var"]

/-- `isLetter` from main.go: ASCII letters and underscore. -/
def isLetter (c : Char) : Bool :=
  ('a' ≤ c && c ≤ 'z') || ('A' ≤ c && c ≤ 'Z') || c = '_'

/-- `isDigit` from main.go: ASCII digits. -/
def isDigit (c : Char) : Bool :=
  '0' ≤ c && c ≤ '9'

/-- `isReservedKeyword` from main.go: membership in the keyword list. -/
def isReservedKeyword (kw : List Char) : Bool :=
  keywords.any (fun w => kw = w.toList)

/-- `unicode.ToTitle` restricted to the behaviour the embedding needs:
ASCII lower-case letters map to upper case, all other ASCII code points
are title-case-invariant; code points `≥ 0x80` defer to the table. -/
def goToTitle (u : GoUnicode) (c : Char) : Char :=
  if c.toNat < 128 then
    (if 'a' ≤ c && c ≤ 'z' then Char.ofNat (c.toNat - 32) else c)
  else u.toTitleU c

/-- The separator characters of `toCamelCase` in main.go. -/
def isSep (c : Char) : Bool :=
  c = '_' || c = '-' || c = ' ' || c = ':' || c = ',' || c = '.'

/-- The closure body of `toCamelCase` in main.go, with the captured
`isPrevSep` flag made an explicit accumulator: separators are dropped and
set the flag; any other rune is emitted, title-cased when the flag is set. -/
def camelMap (u : GoUnicode) : Bool → List Char → List Char
  | _, [] => []
  | prevSep, c :: rest =>
    if isSep c then camelMap u true rest
    else if prevSep then goToTitle u c :: camelMap u false rest
    else c :: camelMap u false rest

/-- `toCamelCase` from main.go; the flag starts out `true`, so the very
first non-separator rune is also title-cased. -/
def toCamelCase (u : GoUnicode) (s : List Char) : List Char :=
  camelMap u true s

/-- The keep/drop decision of `filterInvalidChars` in main.go for the rune
`c` at index `i` of the input: ASCII letters/digits (and `_`, which
`isLetter` includes) are kept, non-ASCII letters/digits/underscore are kept
per the Unicode tables — except that a digit at input index 0 is dropped
(the code tests `i == 0`, the index in the input, not the output). -/
def keepChar (u : GoUnicode) (i : Nat) (c : Char) : Bool :=
  if 128 ≤ c.toNat then
    if u.isLetterU c || c = '_' || u.isDigitU c then
      !(i == 0 && u.isDigitU c)
    else false
  else
    if isLetter c || isDigit c then !(i == 0 && isDigit c)
    else false

/-- The loop of `filterInvalidChars`, indexing runes from `i`. The Go code
compacts kept runes in place with a write cursor `l`; functionally it keeps
exactly the runes accepted by `keepChar` at their input index. -/
def filterAux (u : GoUnicode) : Nat → List Char → List Char
  | _, [] => []
  | i, c :: rest =>
    if keepChar u i c then c :: filterAux u (i + 1) rest
    else filterAux u (i + 1) rest

/-- `filterInvalidChars` from main.go. -/
def filterInvalidChars (u : GoUnicode) (s : List Char) : List Char :=
  filterAux u 0 s

/-- The name produced by `makeVarName` before the reserved-keyword check:
camel-casing, then character filtering, then prefix application. -/
def finalName (u : GoUnicode) (name pre : List Char) : List Char :=
  let n := filterInvalidChars u (toCamelCase u name)
  if pre ≠ [] then pre ++ n else n

/-- `makeVarName` from main.go: build the final name and reject it when it
is a reserved keyword. -/
def makeVarName (u : GoUnicode) (name pre : List Char) : Except String (List Char) :=
  let n := finalName u name pre
  if isReservedKeyword n then Except.error "reserved keyword" else Except.ok n

/-- `filepath.Base` for slash-separated paths, as used by the naming
strategies: empty path gives ".", trailing slashes are removed, the last
path element is returned, an all-slash path gives "/". -/
def fileBase (p : List Char) : List Char :=
  if p = [] then ['.']
  else
    let q := (p.reverse.dropWhile (fun c => c = '/')).reverse
    if q = [] then ['/']
    else (q.reverse.takeWhile (fun c => c ≠ '/')).reverse

/-- `stripExtension` from main.go: `strings.TrimSuffix(base, filepath.Ext base)`,
i.e. the base name up to (excluding) its last dot, or the whole base name
when it contains no dot. -/
def stripExtension (p : List Char) : List Char :=
  let b := fileBase p
  match b.reverse.findIdx? (fun c => c = '.') with
  | some i => b.take (b.length - 1 - i)
  | none => b

/-- `makeVarNameFromBaseName` from main.go (the default naming strategy). -/
def makeVarNameFromBaseName (u : GoUnicode) (path pre : List Char) : Except String (List Char) :=
  makeVarName u (stripExtension path) pre

/-- `makeVarNameFromFileName` from main.go. -/
def makeVarNameFromFileName (u : GoUnicode) (path pre : List Char) : Except String (List Char) :=
  makeVarName u (fileBase path) pre

/-- A rune is kept by `filterInvalidChars` at some position only if it is a
letter, digit or underscore of the respective (ASCII or Unicode) class. -/
def validIdentChar (u : GoUnicode) (c : Char) : Bool :=
  if 128 ≤ c.toNat then u.isLetterU c || c = '_' || u.isDigitU c
  else isLetter c || isDigit c

/-- `BUFSIZE` from main.go: the read/processing chunk size of `quoteFile`. -/
def BUFSIZE : Nat := 4096

/-- Unicode scalar values as accepted by `utf8.ValidRune`: below the
surrogate range, or between the surrogates and `utf8.MaxRune`. -/
def validRune (r : Nat) : Bool :=
  r < 0xD800 || (0xE000 ≤ r && r ≤ 0x10FFFF)

/-- UTF-8 encoding of a code point, as by `utf8.EncodeRune` /
`utf8.AppendRune`: an invalid code point encodes as U+FFFD. -/
def utf8Encode (r0 : Nat) : List Nat :=
  let r := if validRune r0 then r0 else 0xFFFD
  if r < 0x80 then [r]
  else if r < 0x800 then [0xC0 + r / 64, 0x80 + r % 64]
  else if r < 0x10000 then [0xE0 + r / 4096, 0x80 + r / 64 % 64, 0x80 + r % 64]
  else [0xF0 + r / 262144, 0x80 + r / 4096 % 64, 0x80 + r / 64 % 64, 0x80 + r % 64]

/-- `utf8.DecodeRuneInString` on a byte sequence: returns the decoded code
point and its width; any ill-formed, truncated, overlong or surrogate
sequence yields `(RuneError, 1)` (`(0xFFFD, 1)`), and the empty input
yields width 0. -/
def decodeRune : List Nat → Nat × Nat
  | [] => (0xFFFD, 0)
  | b :: rest =>
    if b < 0x80 then (b, 1)
    else if b < 0xC2 then (0xFFFD, 1)
    else if b ≤ 0xDF then
      match rest with
      | b1 :: _ =>
        if 0x80 ≤ b1 ∧ b1 ≤ 0xBF then ((b - 0xC0) * 64 + (b1 - 0x80), 2)
        else (0xFFFD, 1)
      | _ => (0xFFFD, 1)
    else if b ≤ 0xEF then
      let lo := if b = 0xE0 then 0xA0 else 0x80
      let hi := if b = 0xED then 0x9F else 0xBF
      match rest with
      | b1 :: b2 :: _ =>
        if lo ≤ b1 ∧ b1 ≤ hi ∧ 0x80 ≤ b2 ∧ b2 ≤ 0xBF then
          ((b - 0xE0) * 4096 + (b1 - 0x80) * 64 + (b2 - 0x80), 3)
        else (0xFFFD, 1)
      | _ => (0xFFFD, 1)
    else if b ≤ 0xF4 then
      let lo := if b = 0xF0 then 0x90 else 0x80
      let hi := if b = 0xF4 then 0x8F else 0xBF
      match rest with
      | b1 :: b2 :: b3 :: _ =>
        if lo ≤ b1 ∧ b1 ≤ hi ∧ 0x80 ≤ b2 ∧ b2 ≤ 0xBF ∧ 0x80 ≤ b3 ∧ b3 ≤ 0xBF then
          ((b - 0xF0) * 262144 + (b1 - 0x80) * 4096 + (b2 - 0x80) * 64 + (b3 - 0x80), 4)
        else (0xFFFD, 1)
      | _ => (0xFFFD, 1)
    else (0xFFFD, 1)

/-- The lower-case hexadecimal digit table `lowerhex` of strconv. -/
def hexDig (x : Nat) : Nat :=
  if x < 10 then 48 + x else 87 + x

/-- Four lower-case hex digits, as emitted for `\u` escapes. -/
def hex4 (r : Nat) : List Nat :=
  [hexDig (r / 4096 % 16), hexDig (r / 256 % 16), hexDig (r / 16 % 16), hexDig (r % 16)]

/-- Eight lower-case hex digits, as emitted for `\U` escapes. -/
def hex8 (r : Nat) : List Nat :=
  [hexDig (r / 268435456 % 16), hexDig (r / 16777216 % 16), hexDig (r / 1048576 % 16),
   hexDig (r / 65536 % 16), hexDig (r / 4096 % 16), hexDig (r / 256 % 16),
   hexDig (r / 16 % 16), hexDig (r % 16)]

/-- `strconv.IsPrint` as used by the quoting loop: concrete on ASCII
(0x20–0x7E), table-driven at or above 0x80. -/
def isPrintGo (u : GoUnicode) (r : Nat) : Bool :=
  if r < 0x80 then 0x20 ≤ r && r ≤ 0x7E
  else u.isPrintU r

/-- `appendEscapedRune` of strconv for a double-quote context (quote `"`,
`ASCIIonly = false`, `graphicOnly = false`): quote and backslash get a
backslash escape; printable runes are emitted in UTF-8; the named control
escapes, then `\x` for remaining one-byte values, `\u`/`\U` otherwise
(an invalid rune is replaced by U+FFFD first). -/
def escRune (u : GoUnicode) (r : Nat) : List Nat :=
  if r = 0x22 || r = 0x5C then [0x5C, r]
  else if isPrintGo u r then utf8Encode r
  else if r = 7 then [0x5C, 0x61]
  else if r = 8 then [0x5C, 0x62]
  else if r = 12 then [0x5C, 0x66]
  else if r = 10 then [0x5C, 0x6E]
  else if r = 13 then [0x5C, 0x72]
  else if r = 9 then [0x5C, 0x74]
  else if r = 11 then [0x5C, 0x76]
  else if r < 0x20 || r = 0x7F then [0x5C, 0x78, hexDig (r / 16), hexDig (r % 16)]
  else if !validRune r then [0x5C, 0x75] ++ hex4 0xFFFD
  else if r < 0x10000 then [0x5C, 0x75] ++ hex4 r
  else [0x5C, 0x55] ++ hex8 r

/-- The per-rune loop of `strconv.Quote` (`quoteWith`) over raw bytes,
without the surrounding quote characters: each step takes one rune (or one
ill-formed byte, escaped as `\xHH`) off the input. The `fuel` argument is
a structural-recursion bound; it is set to the input length, which the
loop never exhausts since every step consumes at least one byte. -/
def quoteBodyAux (u : GoUnicode) : Nat → List Nat → List Nat
  | _, [] => []
  | 0, _ => []
  | fuel + 1, b :: rest =>
    if b < 0x80 then escRune u b ++ quoteBodyAux u fuel rest
    else
      let rw := decodeRune (b :: rest)
      if rw.2 = 1 then
        [0x5C, 0x78, hexDig (b / 16), hexDig (b % 16)] ++ quoteBodyAux u fuel rest
      else escRune u rw.1 ++ quoteBodyAux u fuel (rest.drop (rw.2 - 1))

/-- The escaped-literal body for a byte sequence: `strconv.Quote` minus
the surrounding quotes. -/
def quoteBody (u : GoUnicode) (s : List Nat) : List Nat :=
  quoteBodyAux u s.length s

/-- The read loop of `quoteFile`: successive chunks of `BUFSIZE` bytes, as
returned by successive full `Read` calls on the file. The `fuel` argument
is a structural-recursion bound, set to the input length. -/
def chunksAux : Nat → List Nat → List (List Nat)
  | _, [] => []
  | 0, _ => []
  | fuel + 1, l => l.take BUFSIZE :: chunksAux fuel (l.drop BUFSIZE)

/-- The chunks read by `quoteFile` for a file with the given contents. -/
def chunksB (s : List Nat) : List (List Nat) :=
  chunksAux s.length s

/-- The literal body written by `quoteFile`'s loop: each chunk is quoted
by `strconv.AppendQuote` and stripped of its own surrounding quotes
(`quoted[1 : len(quoted)-1]`) before being written. -/
def chunkedBody (u : GoUnicode) (s : List Nat) : List Nat :=
  ((chunksB s).map (quoteBody u)).flatten

/-- The complete literal written by `quoteFile` on a successful run: one
opening quote, the chunk-wise escaped body, one closing quote. -/
def quoteLit (u : GoUnicode) (s : List Nat) : List Nat :=
  0x22 :: chunkedBody u s ++ [0x22]

/-- Value of a hexadecimal digit byte (either case), `none` otherwise. -/
def hexVal (b : Nat) : Option Nat :=
  if 48 ≤ b ∧ b ≤ 57 then some (b - 48)
  else if 97 ≤ b ∧ b ≤ 102 then some (b - 87)
  else if 65 ≤ b ∧ b ≤ 70 then some (b - 55)
  else none

/-- Value of an octal digit byte, `none` otherwise. -/
def octVal (b : Nat) : Option Nat :=
  if 48 ≤ b ∧ b ≤ 55 then some (b - 48) else none

/-- Modelled from the spec: one item of the body of a Go interpreted
(double-quoted) string literal, mapped to the bytes it denotes and the
remaining source, as by the Go language specification and
`strconv.Unquote`. Escape sequences `\\a \\b \\f \\n \\r \\t \\v \\\\ \\"`,
`\\xHH` and octal `\\OOO` denote bytes; `\\uHHHH` and `\\UHHHHHHHH` denote
the UTF-8 encoding of the code point (rejected above `utf8.MaxRune`, like
`strconv`); any other source byte denotes itself (Go source is required to
be valid UTF-8, on which the grammar is byte-transparent). A malformed or
truncated escape is an error (`none`). -/
def unqStep : List Nat → Option (List Nat × List Nat)
  | [] => none
  | b :: rest =>
    if b = 0x5C then
      match rest with
      | [] => none
      | e :: rest2 =>
        if e = 0x61 then some ([7], rest2)
        else if e = 0x62 then some ([8], rest2)
        else if e = 0x66 then some ([12], rest2)
        else if e = 0x6E then some ([10], rest2)
        else if e = 0x72 then some ([13], rest2)
        else if e = 0x74 then some ([9], rest2)
        else if e = 0x76 then some ([11], rest2)
        else if e = 0x5C then some ([0x5C], rest2)
        else if e = 0x22 then some ([0x22], rest2)
        else if e = 0x78 then
          match rest2 with
          | h1 :: h2 :: rest3 =>
            match hexVal h1, hexVal h2 with
            | some v1, some v2 => some ([v1 * 16 + v2], rest3)
            | _, _ => none
          | _ => none
        else if e = 0x75 then
          match rest2 with
          | h1 :: h2 :: h3 :: h4 :: rest3 =>
            match hexVal h1, hexVal h2, hexVal h3, hexVal h4 with
            | some v1, some v2, some v3, some v4 =>
              let v := ((v1 * 16 + v2) * 16 + v3) * 16 + v4
              if v ≤ 0x10FFFF then some (utf8Encode v, rest3) else none
            | _, _, _, _ => none
          | _ => none
        else if e = 0x55 then
          match rest2 with
          | h1 :: h2 :: h3 :: h4 :: h5 :: h6 :: h7 :: h8 :: rest3 =>
            match hexVal h1, hexVal h2, hexVal h3, hexVal h4,
                  hexVal h5, hexVal h6, hexVal h7, hexVal h8 with
            | some v1, some v2, some v3, some v4, some v5, some v6, some v7, some v8 =>
              let v := ((((((v1 * 16 + v2) * 16 + v3) * 16 + v4) * 16 + v5) * 16 + v6) * 16
                          + v7) * 16 + v8
              if v ≤ 0x10FFFF then some (utf8Encode v, rest3) else none
            | _, _, _, _, _, _, _, _ => none
          | _ => none
        else
          match octVal e with
          | some v1 =>
            match rest2 with
            | o2 :: o3 :: rest3 =>
              match octVal o2, octVal o3 with
              | some v2, some v3 =>
                let v := (v1 * 8 + v2) * 8 + v3
                if v ≤ 255 then some ([v], rest3) else none
              | _, _ => none
            | _ => none
          | none => none
    else some ([b], rest)

/-- Modelled from the spec: the body of an interpreted string literal up
to and including its closing quote, mapped to the denoted bytes — a quote
byte closes the literal and must be final; otherwise one grammar item is
consumed and the rest is processed. The `fuel` argument is a
structural-recursion bound; it is set to the source length, which the loop
never exhausts since every item consumes at least one byte. -/
def unqTailAux : Nat → List Nat → Option (List Nat)
  | _, [] => none
  | 0, _ :: _ => none
  | fuel + 1, b :: rest =>
    if b = 0x22 then (if rest = [] then some [] else none)
    else
      match unqStep (b :: rest) with
      | some (den, rem) => Option.map (fun t => den ++ t) (unqTailAux fuel rem)
      | none => none

/-- The body of an interpreted string literal, terminated by its closing
quote, mapped to the denoted bytes. -/
def unqTail (l : List Nat) : Option (List Nat) :=
  unqTailAux l.length l

/-- Modelled from the spec: un-escaping a complete interpreted string
literal — an opening quote followed by a body terminated by the closing
quote. -/
def unquote (l : List Nat) : Option (List Nat) :=
  match l with
  | 0x22 :: rest => unqTail rest
  | _ => none

/-- UTF-8 byte rendering of a rune string, used when the emitter prints a
Go string (file name or identifier) into the byte-modelled output. -/
def utf8Str (s : List Char) : List Nat :=
  (s.map (fun c => utf8Encode c.toNat)).flatten

/-- Byte rendering of an ASCII Lean string literal of the emitter. -/
def strBytes (s : String) : List Nat :=
  utf8Str s.toList

/-- The outcome of opening and draining one input file, as observed by
`quoteFile`: a successful full read, a failed `os.Open`, or a `Read` error
after some chunks were already read (`io.EOF` is not an error). -/
inductive FileRead where
  | ok (contents : List Nat)
  | openFail (msg : String)
  | readFail (chunks : List (List Nat)) (msg : String)
deriving DecidableEq

/-- What `quoteFile` writes to the output for one file, and the error it
returns: on open failure nothing is written; on a read failure the opening
quote and the fragments of the chunks read so far are written but no
closing quote; on success the full literal is written. -/
def quoteFileRun (u : GoUnicode) : FileRead → List Nat × Option String
  | .ok s => (quoteLit u s, none)
  | .openFail m => ([], some m)
  | .readFail cs m => (0x22 :: (cs.map (quoteBody u)).flatten, some m)

/-- The `Bundler` configuration from main.go. The output destination is
modelled as the returned byte stream; the package name is the explicitly
configured one (the auto-detect path queries the host build context, which
is outside the embedded code). -/
structure Bundler where
  pkgName : List Char
  pre : List Char
  useConst : Bool
  mkName : List Char → List Char → Except String (List Char)

/-- The declaration keyword chosen in `NewBundler`. -/
def declStr (b : Bundler) : String :=
  if b.useConst then "const" else "var"

/-- The observable result of a run: bytes written to the output stream,
bytes written to the error stream, and the returned error, if any. -/
structure RunOut where
  out : List Nat
  errBytes : List Nat
  res : Option String
deriving DecidableEq

/-- The verbose diagnostic `ProcessFiles` prints per file. -/
def procMsg (fn : List Char) : List Nat :=
  strBytes "processing file: " ++ utf8Str fn ++ strBytes "\n"

/-- The bytes the loop of `ProcessFiles` writes for a file before calling
`quoteFile`: `"\n\t// file: %s\n"` then `"\t%s = "`. -/
def entryHead (fn id : List Char) : List Nat :=
  strBytes "\n\t// file: " ++ utf8Str fn ++ strBytes "\n\t" ++ utf8Str id
    ++ strBytes " = "

/-- One successful entry as written by the loop of `ProcessFiles`: the
entry head, the literal, then `"\n"`. -/
def entryBytes (fn id : List Char) (lit : List Nat) : List Nat :=
  entryHead fn id ++ lit ++ strBytes "\n"

/-- The per-file loop of `ProcessFiles`: for each file print the verbose
message (to the error stream) when `Verbose` is set, derive the variable
name (returning its error on failure), write the file comment and the
assignment head, write the literal via `quoteFile` (returning its error on
failure, the partial literal remaining in the output), and recurse. -/
def processLoop (u : GoUnicode) (b : Bundler) (v : Bool) :
    List (List Char × FileRead) → RunOut
  | [] => ⟨[], [], none⟩
  | (fn, fr) :: rest =>
    let ve := if v then procMsg fn else []
    match b.mkName fn b.pre with
    | .error e => ⟨[], ve, some e⟩
    | .ok id =>
      match quoteFileRun u fr with
      | (q, some m) => ⟨entryHead fn id ++ q, ve, some m⟩
      | (q, none) =>
        let r := processLoop u b v rest
        ⟨entryHead fn id ++ q ++ strBytes "\n" ++ r.out, ve ++ r.errBytes, r.res⟩

/-- Everything `ProcessFiles` writes before the loop:
`writeHeaderWithPackage` (generated-code marker, blank line, package
clause, blank line), the declaration-kind comment, and the opening
`var (` / `const (` without a trailing newline. -/
def headerBytes (pkg : List Char) : List Nat :=
  strBytes "// Code generated automatically; DO NOT EDIT.\n\npackage "
    ++ utf8Str pkg ++ strBytes "\n\n"

/-- The bytes written ahead of the first entry. -/
def preludeBytes (b : Bundler) : List Nat :=
  headerBytes b.pkgName ++ strBytes "// These " ++ strBytes (declStr b)
    ++ strBytes "s are included from files by go generate.\n"
    ++ strBytes (declStr b) ++ strBytes " ("

/-- `ProcessFiles` from main.go over an explicit package name: prelude,
the per-file loop, and — only when the loop succeeds — the closing
`")\n"`; the buffered writer is flushed on every exit path, so on error
the bytes written so far remain in the output. -/
def processFiles (u : GoUnicode) (b : Bundler) (v : Bool)
    (files : List (List Char × FileRead)) : RunOut :=
  let r := processLoop u b v files
  match r.res with
  | none => ⟨preludeBytes b ++ r.out ++ strBytes ")\n", r.errBytes, none⟩
  | some e => ⟨preludeBytes b ++ r.out, r.errBytes, some e⟩

/-- Whether name derivation and reading both succeed for a file. -/
def fileSucceeds (b : Bundler) (f : List Char × FileRead) : Bool :=
  (match b.mkName f.1 b.pre with | .ok _ => true | .error _ => false)
    && (match f.2 with | .ok _ => true | _ => false)

/-- The entry the loop writes for a file on the success path (junk on a
failing file; only used under a `fileSucceeds` hypothesis). -/
def entryOut (u : GoUnicode) (b : Bundler) (f : List Char × FileRead) : List Nat :=
  match b.mkName f.1 b.pre, f.2 with
  | .ok id, .ok c => entryBytes f.1 id (quoteLit u c)
  | _, _ => []

/-- Modelled from the spec, §6 template: one entry as drawn there — a
tab-indented file comment line and a tab-indented assignment line, with no
preceding blank line. -/
def specEntry (u : GoUnicode) (b : Bundler) (f : List Char × FileRead) : List Nat :=
  match b.mkName f.1 b.pre, f.2 with
  | .ok id, .ok c =>
    strBytes "\t// file: " ++ utf8Str f.1 ++ strBytes "\n\t" ++ utf8Str id
      ++ strBytes " = " ++ quoteLit u c ++ strBytes "\n"
  | _, _ => []

/-- Modelled from the spec, §6: the exact output template as printed
there — header, declaration comment, `var (`, a newline, the entries one
directly after another, and the closing `)`. -/
def specTemplate (u : GoUnicode) (b : Bundler)
    (files : List (List Char × FileRead)) : List Nat :=
  preludeBytes b ++ strBytes "\n" ++ (files.map (specEntry u b)).flatten
    ++ strBytes ")\n"

/-- Concatenation of fragments with a separator between consecutive
fragments, used to state the amended form of the §6 template. -/
def joinSep (sep : List Nat) : List (List Nat) → List Nat
  | [] => []
  | [x] => x
  | x :: xs => x ++ sep ++ joinSep sep xs

/-- The §6 template amended minimally: a blank line separates consecutive
entries (each entry after the first is preceded by one extra newline). -/
def amendedTemplate (u : GoUnicode) (b : Bundler)
    (files : List (List Char × FileRead)) : List Nat :=
  preludeBytes b ++ strBytes "\n"
    ++ joinSep (strBytes "\n") (files.map (specEntry u b)) ++ strBytes ")\n"

/-- A concrete configuration used to evaluate runs: package `p`, no
prefix, `var` declarations, the default base-name strategy. -/
def bundlerP : Bundler :=
  ⟨['p'], [], false, makeVarNameFromBaseName asciiTables⟩

/-- Modelled from the claim: the literal body produced by quoting the
entire file contents in a single pass and stripping the outer quotes
once, to be compared against the chunk-wise body `quoteFile` emits. -/
def oneShotBody (u : GoUnicode) (s : List Nat) : List Nat :=
  quoteBody u s

/-- The number of bytes one step of the quoting loop consumes: one byte
for ASCII and for an ill-formed sequence (`RuneError` with width 1), the
decoded rune's width otherwise. -/
def quoteWidth : List Nat → Nat
  | [] => 0
  | b :: rest =>
    if b < 0x80 then 1
    else
      let rw := decodeRune (b :: rest)
      if rw.2 = 1 then 1 else rw.2

/-- Modelled from the amended claim: the rune walk of the one-shot
escaper over `a ++ c` reaches the boundary between `a` and `c` exactly —
no escaping step (a rune or an ill-formed byte) straddles it. Each step
takes `quoteWidth` bytes of the remaining whole input; the walk must stay
inside `a` until `a` is exhausted. The `fuel` argument is a
structural-recursion bound, set to `a.length`, which the walk never
exhausts since every step consumes at least one byte. -/
def alignedAt : Nat → List Nat → List Nat → Bool
  | _, [], _ => true
  | 0, _ :: _, _ => false
  | f + 1, b :: arest, c =>
    let w := quoteWidth (b :: (arest ++ c))
    if w ≤ arest.length + 1 ∧ 1 ≤ w then alignedAt f ((b :: arest).drop w) c
    else false

/-- Modelled from the amended claim: every `BUFSIZE` chunk boundary of
the contents falls on a boundary of the escaper's rune walk — no
multi-byte UTF-8 sequence straddles a 4096-byte chunk boundary. The
`fuel` argument is a structural-recursion bound, set to the length. -/
def noStraddle : Nat → List Nat → Bool
  | _, [] => true
  | 0, _ => true
  | f + 1, s =>
    if s.length ≤ BUFSIZE then true
    else
      alignedAt (s.take BUFSIZE).length (s.take BUFSIZE) (s.drop BUFSIZE)
        && noStraddle f (s.drop BUFSIZE)

/-- Modelled from the amended claim: the contents' chunk boundaries are
all aligned with the escaper's rune walk. -/
def chunksAligned (s : List Nat) : Bool :=
  noStraddle s.length s

theorem keepChar_valid {u : GoUnicode} {i : Nat} {c : Char}
    (h : keepChar u i c = true) : validIdentChar u c = true := by
  unfold keepChar at h
  unfold validIdentChar
  split at h <;> split_ifs at h <;> simp_all

theorem mem_filterAux_valid {u : GoUnicode} {l : List Char} {c : Char} :
    ∀ {i : Nat}, c ∈ filterAux u i l → validIdentChar u c = true := by
  induction l with
  | nil => intro i h; simp [filterAux] at h
  | cons a rest ih =>
    intro i h
    unfold filterAux at h
    by_cases hk : keepChar u i a = true
    · rw [if_pos hk] at h
      rcases List.mem_cons.mp h with h1 | h2
      · exact h1 ▸ keepChar_valid hk
      · exact ih h2
    · rw [if_neg hk] at h
      exact ih h

theorem camelMap_id {u : GoUnicode} {l : List Char}
    (h : ∀ x ∈ l, isSep x = false) : camelMap u false l = l := by
  induction l with
  | nil => rfl
  | cons a rest ih =>
    have ha : isSep a = false := h a (List.mem_cons_self a rest)
    unfold camelMap
    rw [if_neg (by simp [ha]), if_neg (by simp)]
    exact congrArg (a :: ·) (ih fun x hx => h x (List.mem_cons_of_mem a hx))

theorem filterAux_id {u : GoUnicode} {l : List Char}
    (h : ∀ x ∈ l, validIdentChar u x = true) :
    ∀ i : Nat, filterAux u (i + 1) l = l := by
  induction l with
  | nil => intro i; rfl
  | cons a rest ih =>
    intro i
    have ha : validIdentChar u a = true := h a (List.mem_cons_self a rest)
    have hk : keepChar u (i + 1) a = true := by
      unfold keepChar
      unfold validIdentChar at ha
      by_cases hc : 128 ≤ a.toNat
      · rw [if_pos hc] at ha ⊢
        rw [if_pos ha]
        simp
      · rw [if_neg hc] at ha ⊢
        rw [if_pos ha]
        simp
    unfold filterAux
    rw [if_pos hk]
    exact congrArg (a :: ·) (ih (fun x hx => h x (List.mem_cons_of_mem a hx)) (i + 1))

/-- C1 counterexample: the raw filename `!1` with empty prefix passes
`makeVarName` without error, yet the returned identifier is `1`, which
begins with a digit — `filterInvalidChars` drops a digit only at input
index 0 (the leading `!` occupies index 0 and is itself dropped), so the
claimed shape of the result is refuted. -/
theorem c1_counterexample :
    makeVarName asciiTables "!1".toList [] = Except.ok ['1'] ∧ isDigit '1' = true := by
  constructor
  · decide
  · decide

/-- C1 (amended): with an empty prefix, whenever `makeVarName` returns
without error, every character of the returned identifier is a letter,
digit or underscore (of the ASCII or Unicode classes); the identifier may
however be empty or begin with a digit, since only a digit at the very
first input position of the filtering step is dropped. -/
theorem c1_amended_valid_chars (u : GoUnicode) (raw id : List Char)
    (h : makeVarName u raw [] = Except.ok id) :
    id.all (validIdentChar u) = true := by
  have h' : (if isReservedKeyword (filterInvalidChars u (toCamelCase u raw)) = true
      then (Except.error "reserved keyword" : Except String (List Char))
      else Except.ok (filterInvalidChars u (toCamelCase u raw))) = Except.ok id := by
    simpa [makeVarName, finalName] using h
  split at h'
  · simp at h'
  · have hid : filterInvalidChars u (toCamelCase u raw) = id := Except.ok.inj h'
    rw [List.all_eq_true]
    intro c hc
    rw [← hid] at hc
    exact mem_filterAux_valid hc

/-- C1 witness: the amended theorem applied at the raw name `!1`. -/
theorem c1_witness : (['1'].all (validIdentChar asciiTables)) = true :=
  c1_amended_valid_chars asciiTables "!1".toList ['1'] (by decide)

/-- C4 counterexample: the filename base `foo` is a valid, non-reserved
identifier with no separator characters, but the sanitizer returns `Foo`,
not `foo` — `toCamelCase` title-cases the first rune because its
previous-separator flag starts out set. -/
theorem c4_counterexample :
    makeVarName asciiTables "foo".toList [] = Except.ok "Foo".toList ∧
      "Foo".toList ≠ "foo".toList := by
  constructor
  · decide
  · decide

/-- C4 (amended): a filename base that is a valid, non-reserved identifier
with no separator characters is returned unchanged (aside from the
optional prefix) provided additionally that its first character is
title-case-invariant (not a lower-case letter) and is not a digit. -/
theorem c4_amended_identity (u : GoUnicode) (c : Char) (cs pre : List Char)
    (hall : ∀ x ∈ c :: cs, isSep x = false ∧ validIdentChar u x = true)
    (hhead1 : goToTitle u c = c) (hhead2 : keepChar u 0 c = true)
    (hres : isReservedKeyword (pre ++ c :: cs) = false) :
    makeVarName u (c :: cs) pre = Except.ok (pre ++ c :: cs) := by
  have hsep : ∀ x ∈ cs, isSep x = false :=
    fun x hx => (hall x (List.mem_cons_of_mem c hx)).1
  have hval : ∀ x ∈ cs, validIdentChar u x = true :=
    fun x hx => (hall x (List.mem_cons_of_mem c hx)).2
  have hsc : isSep c = false := (hall c (List.mem_cons_self c cs)).1
  have hcam : toCamelCase u (c :: cs) = c :: cs := by
    show camelMap u true (c :: cs) = c :: cs
    unfold camelMap
    rw [if_neg (by simp [hsc]), if_pos rfl, hhead1]
    exact congrArg (c :: ·) (camelMap_id hsep)
  have hfil : filterInvalidChars u (c :: cs) = c :: cs := by
    show filterAux u 0 (c :: cs) = c :: cs
    unfold filterAux
    rw [if_pos hhead2]
    exact congrArg (c :: ·) (filterAux_id hval 0)
  unfold makeVarName finalName
  rw [hcam, hfil]
  rcases eq_or_ne pre ([] : List Char) with hp | hp
  · subst hp
    rw [List.nil_append] at hres ⊢
    simp [hres]
  · rw [if_pos hp]
    simp [hres]

/-- C4 witness: the amended theorem applied at the base name `Foo9`. -/
theorem c4_witness :
    makeVarName asciiTables ('F' :: "oo9".toList) [] =
      Except.ok ([] ++ 'F' :: "oo9".toList) :=
  c4_amended_identity asciiTables 'F' "oo9".toList []
    (by decide) (by decide) (by decide) (by decide)

/-- C5: `makeVarName` returns its reserved-keyword error exactly when the
final name (after camel-casing, filtering and prefixing) is one of the 25
reserved Go keywords; the keyword list has 25 entries; the filename `!map`
with empty prefix sanitizes to exactly `map` and makes the call fail; and
a `ProcessFiles` run over such a file aborts with that error. -/
theorem c5_reserved_iff :
    (∀ (u : GoUnicode) (name pre : List Char),
        makeVarName u name pre = Except.error "reserved keyword" ↔
          isReservedKeyword (finalName u name pre) = true)
    ∧ keywords.length = 25
    ∧ makeVarName asciiTables "!map".toList [] = Except.error "reserved keyword"
    ∧ (processFiles asciiTables
        ⟨['p'], [], false, makeVarNameFromBaseName asciiTables⟩ false
        [("!map".toList, FileRead.ok [])]).res = some "reserved keyword" := by
  refine ⟨?_, by decide, by decide, by decide⟩
  intro u name pre
  unfold makeVarName
  by_cases h : isReservedKeyword (finalName u name pre) = true
  · simp [h]
  · simp [h]

theorem processLoop_cons_err {u : GoUnicode} {b : Bundler} {v : Bool}
    {fn : List Char} {fr : FileRead} {rest : List (List Char × FileRead)}
    {e : String} (h : b.mkName fn b.pre = Except.error e) :
    processLoop u b v ((fn, fr) :: rest) = ⟨[], if v then procMsg fn else [], some e⟩ := by
  simp [processLoop, h]

theorem processLoop_cons_qerr {u : GoUnicode} {b : Bundler} {v : Bool}
    {fn : List Char} {fr : FileRead} {rest : List (List Char × FileRead)}
    {id : List Char} {q : List Nat} {m : String}
    (h : b.mkName fn b.pre = Except.ok id) (hq : quoteFileRun u fr = (q, some m)) :
    processLoop u b v ((fn, fr) :: rest) =
      ⟨entryHead fn id ++ q, if v then procMsg fn else [], some m⟩ := by
  simp [processLoop, h, hq]

theorem processLoop_cons_ok {u : GoUnicode} {b : Bundler} {v : Bool}
    {fn : List Char} {fr : FileRead} {rest : List (List Char × FileRead)}
    {id : List Char} {q : List Nat}
    (h : b.mkName fn b.pre = Except.ok id) (hq : quoteFileRun u fr = (q, none)) :
    processLoop u b v ((fn, fr) :: rest) =
      ⟨entryHead fn id ++ q ++ strBytes "\n" ++ (processLoop u b v rest).out,
       (if v then procMsg fn else []) ++ (processLoop u b v rest).errBytes,
       (processLoop u b v rest).res⟩ := by
  simp [processLoop, h, hq]

theorem processLoop_append (u : GoUnicode) (b : Bundler) (v : Bool)
    (xs ys : List (List Char × FileRead))
    (h : (processLoop u b v xs).res = none) :
    processLoop u b v (xs ++ ys) =
      ⟨(processLoop u b v xs).out ++ (processLoop u b v ys).out,
       (processLoop u b v xs).errBytes ++ (processLoop u b v ys).errBytes,
       (processLoop u b v ys).res⟩ := by
  induction xs with
  | nil => simp [processLoop]
  | cons f rest ih =>
    obtain ⟨fn, fr⟩ := f
    cases hmk : b.mkName fn b.pre with
    | error e =>
      rw [@processLoop_cons_err u b v fn fr rest e hmk] at h
      simp at h
    | ok id =>
      cases hq : quoteFileRun u fr with
      | mk q oe =>
        cases oe with
        | some m =>
          rw [@processLoop_cons_qerr u b v fn fr rest id q m hmk hq] at h
          simp at h
        | none =>
          rw [@processLoop_cons_ok u b v fn fr rest id q hmk hq] at h
          rw [List.cons_append, @processLoop_cons_ok u b v fn fr (rest ++ ys) id q hmk hq,
            @processLoop_cons_ok u b v fn fr rest id q hmk hq,
            ih h]
          simp [List.append_assoc]

theorem processLoop_success {u : GoUnicode} {b : Bundler} {v : Bool}
    {files : List (List Char × FileRead)}
    (h : ∀ f ∈ files, fileSucceeds b f = true) :
    processLoop u b v files =
      ⟨(files.map (entryOut u b)).flatten,
       (files.map (fun f => if v then procMsg f.1 else [])).flatten, none⟩ := by
  induction files with
  | nil => rfl
  | cons f rest ih =>
    obtain ⟨fn, fr⟩ := f
    have hf : fileSucceeds b (fn, fr) = true := h _ (List.mem_cons_self _ rest)
    cases hmk : b.mkName fn b.pre with
    | error e => simp [fileSucceeds, hmk] at hf
    | ok id =>
      cases fr with
      | openFail m => simp [fileSucceeds] at hf
      | readFail cs m => simp [fileSucceeds] at hf
      | ok c =>
        rw [@processLoop_cons_ok u b v fn (FileRead.ok c) rest id (quoteLit u c) hmk rfl,
          ih (fun x hx => h x (List.mem_cons_of_mem _ hx))]
        simp [entryOut, hmk, entryBytes, List.append_assoc]

theorem processLoop_fail_head {u : GoUnicode} {b : Bundler} {v : Bool}
    {f : List Char × FileRead} {m : String}
    (h : (processLoop u b v [f]).res = some m)
    (rest : List (List Char × FileRead)) :
    processLoop u b v (f :: rest) = processLoop u b v [f] := by
  obtain ⟨fn, fr⟩ := f
  cases hmk : b.mkName fn b.pre with
  | error e =>
    rw [@processLoop_cons_err u b v fn fr rest e hmk,
      @processLoop_cons_err u b v fn fr [] e hmk]
  | ok id =>
    cases hq : quoteFileRun u fr with
    | mk q oe =>
      cases oe with
      | some m2 =>
        rw [@processLoop_cons_qerr u b v fn fr rest id q m2 hmk hq,
          @processLoop_cons_qerr u b v fn fr [] id q m2 hmk hq]
      | none =>
        rw [@processLoop_cons_ok u b v fn fr [] id q hmk hq] at h
        simp [processLoop] at h

theorem entryOut_spec {u : GoUnicode} {b : Bundler} {f : List Char × FileRead}
    (h : fileSucceeds b f = true) :
    entryOut u b f = strBytes "\n" ++ specEntry u b f := by
  obtain ⟨fn, fr⟩ := f
  cases hmk : b.mkName fn b.pre with
  | error e => simp [fileSucceeds, hmk] at h
  | ok id =>
    cases fr with
    | openFail m => simp [fileSucceeds] at h
    | readFail cs m => simp [fileSucceeds] at h
    | ok c =>
      have hhd : strBytes "\n\t// file: " = strBytes "\n" ++ strBytes "\t// file: " := by
        decide
      simp only [entryOut, specEntry, hmk, entryBytes, entryHead, hhd]
      simp [List.append_assoc]

theorem flatten_eq_joinSep {α : Type} (sep : List Nat) (g h : α → List Nat) :
    ∀ l : List α, l ≠ [] → (∀ x ∈ l, g x = sep ++ h x) →
      (l.map g).flatten = sep ++ joinSep sep (l.map h) := by
  intro l
  induction l with
  | nil => intro hne; exact absurd rfl hne
  | cons x xs ih =>
    intro _ hall
    have hx : g x = sep ++ h x := hall x (List.mem_cons_self _ _)
    cases xs with
    | nil => simp [joinSep, hx]
    | cons y ys =>
      have hrec := ih (by simp) (fun z hz => hall z (List.mem_cons_of_mem _ hz))
      simp only [List.map_cons, List.flatten_cons] at hrec ⊢
      rw [hrec, hx]
      show _ = sep ++ joinSep sep (h x :: h y :: ys.map h)
      simp only [joinSep]
      simp [List.append_assoc]

theorem processLoop_vinv (u : GoUnicode) (b : Bundler)
    (files : List (List Char × FileRead)) (v1 v2 : Bool) :
    (processLoop u b v1 files).out = (processLoop u b v2 files).out ∧
    (processLoop u b v1 files).res = (processLoop u b v2 files).res := by
  induction files with
  | nil => exact ⟨rfl, rfl⟩
  | cons f rest ih =>
    obtain ⟨fn, fr⟩ := f
    cases hmk : b.mkName fn b.pre with
    | error e =>
      rw [@processLoop_cons_err u b v1 fn fr rest e hmk,
        @processLoop_cons_err u b v2 fn fr rest e hmk]
      exact ⟨rfl, rfl⟩
    | ok id =>
      cases hq : quoteFileRun u fr with
      | mk q oe =>
        cases oe with
        | some m =>
          rw [@processLoop_cons_qerr u b v1 fn fr rest id q m hmk hq,
            @processLoop_cons_qerr u b v2 fn fr rest id q m hmk hq]
          exact ⟨rfl, rfl⟩
        | none =>
          rw [@processLoop_cons_ok u b v1 fn fr rest id q hmk hq,
            @processLoop_cons_ok u b v2 fn fr rest id q hmk hq]
          exact ⟨by rw [ih.1], ih.2⟩

/-- C3 counterexample: on a two-file input (both readable, both names
derivable) the bytes `ProcessFiles` emits differ from the exact §6
template — the code writes a leading newline per entry, which puts a
blank line between consecutive entries, while the §6 template shows the
second `// file:` comment directly after the first entry line. -/
theorem c3_counterexample :
    (processFiles asciiTables bundlerP false
       [(['a'], FileRead.ok [65]), (['b'], FileRead.ok [66])]).out ≠
      specTemplate asciiTables bundlerP
        [(['a'], FileRead.ok [65]), (['b'], FileRead.ok [66])] := by
  decide

/-- C3 (amended): for every non-empty file list on which every name
derivation and every read succeeds, the emitted output is exactly the §6
template amended so that consecutive entries are separated by a blank
line (each entry after the first is preceded by one extra newline), and
the run returns no error. -/
theorem c3_amended_template (u : GoUnicode) (b : Bundler) (v : Bool)
    (files : List (List Char × FileRead)) (hne : files ≠ [])
    (hok : ∀ f ∈ files, fileSucceeds b f = true) :
    (processFiles u b v files).out = amendedTemplate u b files ∧
    (processFiles u b v files).res = none := by
  have hl := @processLoop_success u b v files hok
  have hj := flatten_eq_joinSep (strBytes "\n") (entryOut u b) (specEntry u b)
    files hne (fun f hf => entryOut_spec (hok f hf))
  constructor
  · simp only [processFiles, hl]
    rw [hj]
    simp [amendedTemplate, List.append_assoc]
  · simp [processFiles, hl]

/-- C3 witness: the amended theorem applied at the two-file input of the
counterexample. -/
theorem c3_witness :
    (processFiles asciiTables bundlerP false
       [(['a'], FileRead.ok [65]), (['b'], FileRead.ok [66])]).out =
      amendedTemplate asciiTables bundlerP
        [(['a'], FileRead.ok [65]), (['b'], FileRead.ok [66])] ∧
    (processFiles asciiTables bundlerP false
       [(['a'], FileRead.ok [65]), (['b'], FileRead.ok [66])]).res = none :=
  c3_amended_template asciiTables bundlerP false
    [(['a'], FileRead.ok [65]), (['b'], FileRead.ok [66])]
    (by decide) (by decide)

/-- C6: when every file before `bad` succeeds and `bad` is the first file
to fail (name rejection, open failure or read failure, with loop output
`t`, error-stream output `e` and error `m`), `ProcessFiles` returns that
error immediately: the output is the prelude, the entries of the
preceding files and the (possibly partial) bytes for `bad`, and the files
after `bad` contribute nothing — the right-hand side does not mention
`rest`. -/
theorem c6_fail_fast (u : GoUnicode) (b : Bundler) (v : Bool)
    (good : List (List Char × FileRead)) (bad : List Char × FileRead)
    (rest : List (List Char × FileRead)) (t e : List Nat) (m : String)
    (hg : ∀ f ∈ good, fileSucceeds b f = true)
    (hb : processLoop u b v [bad] = ⟨t, e, some m⟩) :
    processFiles u b v (good ++ bad :: rest) =
      ⟨preludeBytes b ++ ((processLoop u b v good).out ++ t),
       (processLoop u b v good).errBytes ++ e, some m⟩ := by
  have hgres : (processLoop u b v good).res = none := by
    rw [@processLoop_success u b v good hg]
  have hfail : processLoop u b v (bad :: rest) = ⟨t, e, some m⟩ := by
    rw [processLoop_fail_head (by rw [hb]) rest, hb]
  have happ := processLoop_append u b v good (bad :: rest) hgres
  rw [hfail] at happ
  simp [processFiles, happ]

/-- C6 witness: the theorem applied to a run where the second file's name
sanitizes to the keyword `map`; the third file (an open failure) is never
reached. -/
theorem c6_witness :
    processFiles asciiTables bundlerP false
        ([(['a'], FileRead.ok [65])] ++
          ("!map".toList, FileRead.ok []) :: [(['z'], FileRead.openFail "boom")]) =
      ⟨preludeBytes bundlerP ++
         ((processLoop asciiTables bundlerP false [(['a'], FileRead.ok [65])]).out ++ []),
       (processLoop asciiTables bundlerP false [(['a'], FileRead.ok [65])]).errBytes ++ [],
       some "reserved keyword"⟩ :=
  c6_fail_fast asciiTables bundlerP false [(['a'], FileRead.ok [65])]
    ("!map".toList, FileRead.ok []) [(['z'], FileRead.openFail "boom")]
    [] [] "reserved keyword" (by decide) (by decide)

/-- C7: a zero-byte input file yields exactly the two-character literal
`""`, and a run over zero files yields only the header block and an empty
declaration block (`var ()` / `const ()`) with no entries. -/
theorem c7_boundary :
    (∀ u : GoUnicode, quoteLit u [] = [0x22, 0x22]) ∧
    (∀ (u : GoUnicode) (b : Bundler) (v : Bool),
      processFiles u b v [] = ⟨preludeBytes b ++ strBytes ")\n", [], none⟩) := by
  constructor
  · intro u
    rfl
  · intro u b v
    simp [processFiles, processLoop]

/-- C8: when two distinct (readable) input files derive the same
identifier `n`, the run succeeds and both entries are emitted with that
same identifier — no uniqueness check intervenes. -/
theorem c8_duplicate_names (u : GoUnicode) (b : Bundler) (v : Bool)
    (f1 f2 : List Char) (c1 c2 : List Nat) (n : List Char)
    (h1 : b.mkName f1 b.pre = Except.ok n) (h2 : b.mkName f2 b.pre = Except.ok n)
    (hne : f1 ≠ f2) :
    (processFiles u b v [(f1, .ok c1), (f2, .ok c2)]).res = none ∧
    (processFiles u b v [(f1, .ok c1), (f2, .ok c2)]).out =
      preludeBytes b ++ entryBytes f1 n (quoteLit u c1)
        ++ entryBytes f2 n (quoteLit u c2) ++ strBytes ")\n" := by
  have hl : processLoop u b v [(f1, FileRead.ok c1), (f2, FileRead.ok c2)] =
      ⟨entryHead f1 n ++ quoteLit u c1 ++ strBytes "\n"
         ++ (entryHead f2 n ++ quoteLit u c2 ++ strBytes "\n" ++ []),
       (if v then procMsg f1 else []) ++ ((if v then procMsg f2 else []) ++ []),
       none⟩ := by
    rw [@processLoop_cons_ok u b v f1 (FileRead.ok c1) [(f2, FileRead.ok c2)] n
        (quoteLit u c1) h1 rfl,
      @processLoop_cons_ok u b v f2 (FileRead.ok c2) [] n (quoteLit u c2) h2 rfl]
    rfl
  constructor
  · simp [processFiles, hl]
  · simp [processFiles, hl, entryBytes, List.append_assoc]

/-- C8 witness: `foo.json` and `foo.txt` under the strip-extension naming
strategy both derive the identifier `Foo`; the run succeeds and emits both
entries. -/
theorem c8_witness :
    (processFiles asciiTables bundlerP false
       [("foo.json".toList, .ok [65]), ("foo.txt".toList, .ok [])]).res = none ∧
    (processFiles asciiTables bundlerP false
       [("foo.json".toList, .ok [65]), ("foo.txt".toList, .ok [])]).out =
      preludeBytes bundlerP ++ entryBytes "foo.json".toList "Foo".toList
          (quoteLit asciiTables [65])
        ++ entryBytes "foo.txt".toList "Foo".toList (quoteLit asciiTables [])
        ++ strBytes ")\n" :=
  c8_duplicate_names asciiTables bundlerP false "foo.json".toList "foo.txt".toList
    [65] [] "Foo".toList (by decide) (by decide) (by decide)

/-- C9: the generated output and the returned error of `ProcessFiles` are
functions of the configuration and the input files alone — in particular
they do not depend on the global `Verbose` flag, which only affects the
error stream; hence two runs with identical configuration and inputs
produce byte-identical output. -/
theorem c9_verbose_independent (u : GoUnicode) (b : Bundler)
    (files : List (List Char × FileRead)) (v1 v2 : Bool) :
    (processFiles u b v1 files).out = (processFiles u b v2 files).out ∧
    (processFiles u b v1 files).res = (processFiles u b v2 files).res := by
  obtain ⟨ho, hr⟩ := processLoop_vinv u b files v1 v2
  constructor
  · simp only [processFiles]
    rw [hr]
    cases hc : (processLoop u b v2 files).res with
    | none => simp [hc, ho]
    | some e => simp [hc, ho]
  · simp only [processFiles]
    rw [hr]
    cases hc : (processLoop u b v2 files).res with
    | none => simp [hc]
    | some e => simp [hc]


theorem hexVal_hexDig : ∀ x < 16, hexVal (hexDig x) = some x := by
  decide

theorem unqTailAux_nil : ∀ f : Nat, unqTailAux f [] = none := by
  intro f
  cases f <;> rfl

theorem unqStep_consume : ∀ {l bs rem : List Nat},
    unqStep l = some (bs, rem) → rem.length < l.length := by
  intro l bs rem h
  match l with
  | [] => simp [unqStep] at h
  | [b] =>
    simp only [unqStep] at h
    by_cases hb : b = 0x5C
    · rw [if_pos hb] at h
      simp at h
    · rw [if_neg hb] at h
      obtain ⟨hp1, hp2⟩ := Prod.mk.inj (Option.some.inj h)
      subst hp2
      simp
  | b :: e :: rest2 =>
    simp only [unqStep] at h
    by_cases hb : b = 0x5C
    swap
    · rw [if_neg hb] at h
      obtain ⟨hp1, hp2⟩ := Prod.mk.inj (Option.some.inj h)
      subst hp2
      simp
    rw [if_pos hb] at h
    · have hgen : ∀ (den rem2 : List Nat), rem2.length < (b :: e :: rest2).length →
          some (den, rem2) = some (bs, rem) → rem.length < (b :: e :: rest2).length := by
        intro den rem2 hlt hd
        obtain ⟨hp1, hp2⟩ := Prod.mk.inj (Option.some.inj hd)
        subst hp2
        exact hlt
    
      by_cases h1 : e = 0x61
      · rw [if_pos h1] at h
        exact hgen _ rest2 (by simp only [List.length_cons]; omega) h
      rw [if_neg h1] at h
      by_cases h2 : e = 0x62
      · rw [if_pos h2] at h
        exact hgen _ rest2 (by simp only [List.length_cons]; omega) h
      rw [if_neg h2] at h
      by_cases h3 : e = 0x66
      · rw [if_pos h3] at h
        exact hgen _ rest2 (by simp only [List.length_cons]; omega) h
      rw [if_neg h3] at h
      by_cases h4 : e = 0x6E
      · rw [if_pos h4] at h
        exact hgen _ rest2 (by simp only [List.length_cons]; omega) h
      rw [if_neg h4] at h
      by_cases h5 : e = 0x72
      · rw [if_pos h5] at h
        exact hgen _ rest2 (by simp only [List.length_cons]; omega) h
      rw [if_neg h5] at h
      by_cases h6 : e = 0x74
      · rw [if_pos h6] at h
        exact hgen _ rest2 (by simp only [List.length_cons]; omega) h
      rw [if_neg h6] at h
      by_cases h7 : e = 0x76
      · rw [if_pos h7] at h
        exact hgen _ rest2 (by simp only [List.length_cons]; omega) h
      rw [if_neg h7] at h
      by_cases h8 : e = 0x5C
      · rw [if_pos h8] at h
        exact hgen _ rest2 (by simp only [List.length_cons]; omega) h
      rw [if_neg h8] at h
      by_cases h9 : e = 0x22
      · rw [if_pos h9] at h
        exact hgen _ rest2 (by simp only [List.length_cons]; omega) h
      rw [if_neg h9] at h
      by_cases h10 : e = 0x78
      · rw [if_pos h10] at h
        match rest2 with
        | [] => simp at h
        | [x1] => simp at h
        | x1 :: x2 :: rest3 =>
          dsimp only at h
          cases hv1 : hexVal x1 with
          | none => rw [hv1] at h; simp at h
          | some v1 =>
            cases hv2 : hexVal x2 with
            | none => rw [hv1, hv2] at h; simp at h
            | some v2 =>
              rw [hv1, hv2] at h
              exact hgen _ rest3 (by simp only [List.length_cons]; omega) h
      rw [if_neg h10] at h
      by_cases h11 : e = 0x75
      · rw [if_pos h11] at h
        match rest2 with
        | [] => simp at h
        | [x1] => simp at h
        | [x1, x2] => simp at h
        | [x1, x2, x3] => simp at h
        | x1 :: x2 :: x3 :: x4 :: rest3 =>
          dsimp only at h
          cases hv1 : hexVal x1 with
          | none => rw [hv1] at h; simp at h
          | some v1 =>
            cases hv2 : hexVal x2 with
            | none => rw [hv1, hv2] at h; simp at h
            | some v2 =>
              cases hv3 : hexVal x3 with
              | none => rw [hv1, hv2, hv3] at h; simp at h
              | some v3 =>
                cases hv4 : hexVal x4 with
                | none => rw [hv1, hv2, hv3, hv4] at h; simp at h
                | some v4 =>
                  rw [hv1, hv2, hv3, hv4] at h
                  dsimp only at h
                  by_cases hle : ((v1 * 16 + v2) * 16 + v3) * 16 + v4 ≤ 0x10FFFF
                  · rw [if_pos hle] at h
                    exact hgen _ rest3 (by simp only [List.length_cons]; omega) h
                  · rw [if_neg hle] at h
                    simp at h
      rw [if_neg h11] at h
      by_cases h12 : e = 0x55
      · rw [if_pos h12] at h
        match rest2 with
        | [] => simp at h
        | [x1] => simp at h
        | [x1, x2] => simp at h
        | [x1, x2, x3] => simp at h
        | [x1, x2, x3, x4] => simp at h
        | [x1, x2, x3, x4, x5] => simp at h
        | [x1, x2, x3, x4, x5, x6] => simp at h
        | [x1, x2, x3, x4, x5, x6, x7] => simp at h
        | x1 :: x2 :: x3 :: x4 :: x5 :: x6 :: x7 :: x8 :: rest3 =>
          dsimp only at h
          cases hv1 : hexVal x1 with
          | none => rw [hv1] at h; simp at h
          | some v1 =>
            cases hv2 : hexVal x2 with
            | none => rw [hv1, hv2] at h; simp at h
            | some v2 =>
              cases hv3 : hexVal x3 with
              | none => rw [hv1, hv2, hv3] at h; simp at h
              | some v3 =>
                cases hv4 : hexVal x4 with
                | none => rw [hv1, hv2, hv3, hv4] at h; simp at h
                | some v4 =>
                  cases hv5 : hexVal x5 with
                  | none => rw [hv1, hv2, hv3, hv4, hv5] at h; simp at h
                  | some v5 =>
                    cases hv6 : hexVal x6 with
                    | none => rw [hv1, hv2, hv3, hv4, hv5, hv6] at h; simp at h
                    | some v6 =>
                      cases hv7 : hexVal x7 with
                      | none => rw [hv1, hv2, hv3, hv4, hv5, hv6, hv7] at h; simp at h
                      | some v7 =>
                        cases hv8 : hexVal x8 with
                        | none => rw [hv1, hv2, hv3, hv4, hv5, hv6, hv7, hv8] at h; simp at h
                        | some v8 =>
                          rw [hv1, hv2, hv3, hv4, hv5, hv6, hv7, hv8] at h
                          dsimp only at h
                          by_cases hle : ((((((v1 * 16 + v2) * 16 + v3) * 16 + v4) * 16 + v5)
                              * 16 + v6) * 16 + v7) * 16 + v8 ≤ 0x10FFFF
                          · rw [if_pos hle] at h
                            exact hgen _ rest3 (by simp only [List.length_cons]; omega) h
                          · rw [if_neg hle] at h
                            simp at h
      rw [if_neg h12] at h
      cases ho : octVal e with
      | none => rw [ho] at h; simp at h
      | some v1 =>
        rw [ho] at h
        match rest2 with
        | [] => simp at h
        | [o2] => simp at h
        | o2 :: o3 :: rest3 =>
          dsimp only at h
          cases ho2 : octVal o2 with
          | none => rw [ho2] at h; simp at h
          | some v2 =>
            cases ho3 : octVal o3 with
            | none => rw [ho2, ho3] at h; simp at h
            | some v3 =>
              rw [ho2, ho3] at h
              dsimp only at h
              by_cases hle : (v1 * 8 + v2) * 8 + v3 ≤ 255
              · rw [if_pos hle] at h
                exact hgen _ rest3 (by simp only [List.length_cons]; omega) h
              · rw [if_neg hle] at h
                simp at h

theorem unqTailAux_fuel : ∀ (f1 f2 : Nat) (l : List Nat),
    l.length ≤ f1 → l.length ≤ f2 → unqTailAux f1 l = unqTailAux f2 l := by
  intro f1
  induction f1 with
  | zero =>
    intro f2 l h1 h2
    have hl : l = [] := List.eq_nil_of_length_eq_zero (by omega)
    subst hl
    rw [unqTailAux_nil, unqTailAux_nil]
  | succ f ih =>
    intro f2 l h1 h2
    cases l with
    | nil => rw [unqTailAux_nil, unqTailAux_nil]
    | cons b rest =>
      cases f2 with
      | zero => simp [List.length_cons] at h2
      | succ g =>
        show unqTailAux (f + 1) (b :: rest) = unqTailAux (g + 1) (b :: rest)
        unfold unqTailAux
        by_cases hq : b = 0x22
        · rw [if_pos hq, if_pos hq]
        · rw [if_neg hq, if_neg hq]
          cases hs : unqStep (b :: rest) with
          | none => rfl
          | some p =>
            obtain ⟨den, rem⟩ := p
            have hlt := unqStep_consume hs
            simp only [List.length_cons] at h1 h2 hlt
            show Option.map _ (unqTailAux f rem) = Option.map _ (unqTailAux g rem)
            rw [ih g rem (by omega) (by omega)]

theorem unqTail_cons_step {b : Nat} {rest den rem : List Nat}
    (hq : b ≠ 0x22) (hs : unqStep (b :: rest) = some (den, rem)) :
    unqTail (b :: rest) = Option.map (fun l => den ++ l) (unqTail rem) := by
  have hlt := unqStep_consume hs
  show unqTailAux (b :: rest).length (b :: rest) = _
  rw [show (b :: rest).length = rest.length + 1 from rfl]
  unfold unqTailAux
  rw [if_neg hq, hs]
  dsimp only
  rw [unqTailAux_fuel rest.length rem.length rem
    (by simp only [List.length_cons] at hlt; omega) (le_refl _)]
  rfl

theorem unqStep_raw {b : Nat} (hb : b ≠ 0x5C) (t : List Nat) :
    unqStep (b :: t) = some ([b], t) := by
  simp [unqStep, hb]

theorem unqTail_raw {b : Nat} (h1 : b ≠ 0x22) (h2 : b ≠ 0x5C) (t : List Nat) :
    unqTail (b :: t) = Option.map (fun l => b :: l) (unqTail t) := by
  rw [unqTail_cons_step h1 (unqStep_raw h2 t)]
  rfl

theorem unqTail_rawList {bs : List Nat} (h : ∀ x ∈ bs, x ≠ 0x22 ∧ x ≠ 0x5C)
    (t : List Nat) :
    unqTail (bs ++ t) = Option.map (fun l => bs ++ l) (unqTail t) := by
  induction bs with
  | nil => simp
  | cons b rest ih =>
    have hb := h b (List.mem_cons_self _ _)
    rw [List.cons_append, unqTail_raw hb.1 hb.2,
      ih (fun x hx => h x (List.mem_cons_of_mem _ hx))]
    simp [Option.map_map, Function.comp_def]

theorem unqStep_hexesc {b : Nat} (hb : b < 256) (t : List Nat) :
    unqStep (0x5C :: 0x78 :: hexDig (b / 16) :: hexDig (b % 16) :: t) =
      some ([b], t) := by
  have e1 := hexVal_hexDig (b / 16) (by omega)
  have e2 := hexVal_hexDig (b % 16) (by omega)
  have hrv : b / 16 * 16 + b % 16 = b := by omega
  simp [unqStep, e1, e2, hrv]

theorem unqTail_hexesc {b : Nat} (hb : b < 256) (t : List Nat) :
    unqTail (0x5C :: 0x78 :: hexDig (b / 16) :: hexDig (b % 16) :: t) =
      Option.map (fun l => b :: l) (unqTail t) := by
  rw [unqTail_cons_step (by omega) (unqStep_hexesc hb t)]
  rfl

theorem unqStep_u4 {r : Nat} (h1 : r < 0x10000) (t : List Nat) :
    unqStep (0x5C :: 0x75 :: (hex4 r ++ t)) = some (utf8Encode r, t) := by
  have e1 := hexVal_hexDig (r / 4096 % 16) (by omega)
  have e2 := hexVal_hexDig (r / 256 % 16) (by omega)
  have e3 := hexVal_hexDig (r / 16 % 16) (by omega)
  have e4 := hexVal_hexDig (r % 16) (by omega)
  have hrv : ((r / 4096 % 16 * 16 + r / 256 % 16) * 16 + r / 16 % 16) * 16 + r % 16 = r := by
    omega
  simp [hex4, unqStep, e1, e2, e3, e4, hrv, show r ≤ 0x10FFFF by omega]

theorem unqTail_u4 {r : Nat} (h1 : r < 0x10000) (t : List Nat) :
    unqTail (0x5C :: 0x75 :: (hex4 r ++ t)) =
      Option.map (fun l => utf8Encode r ++ l) (unqTail t) :=
  unqTail_cons_step (by omega) (unqStep_u4 h1 t)

theorem unqStep_U8 {r : Nat} (h1 : r ≤ 0x10FFFF) (t : List Nat) :
    unqStep (0x5C :: 0x55 :: (hex8 r ++ t)) = some (utf8Encode r, t) := by
  have e1 := hexVal_hexDig (r / 268435456 % 16) (by omega)
  have e2 := hexVal_hexDig (r / 16777216 % 16) (by omega)
  have e3 := hexVal_hexDig (r / 1048576 % 16) (by omega)
  have e4 := hexVal_hexDig (r / 65536 % 16) (by omega)
  have e5 := hexVal_hexDig (r / 4096 % 16) (by omega)
  have e6 := hexVal_hexDig (r / 256 % 16) (by omega)
  have e7 := hexVal_hexDig (r / 16 % 16) (by omega)
  have e8 := hexVal_hexDig (r % 16) (by omega)
  have hrv : ((((((r / 268435456 % 16 * 16 + r / 16777216 % 16) * 16
      + r / 1048576 % 16) * 16 + r / 65536 % 16) * 16 + r / 4096 % 16) * 16
      + r / 256 % 16) * 16 + r / 16 % 16) * 16 + r % 16 = r := by omega
  simp [hex8, unqStep, e1, e2, e3, e4, e5, e6, e7, e8, hrv, h1]

theorem unqTail_U8 {r : Nat} (h1 : r ≤ 0x10FFFF) (t : List Nat) :
    unqTail (0x5C :: 0x55 :: (hex8 r ++ t)) =
      Option.map (fun l => utf8Encode r ++ l) (unqTail t) :=
  unqTail_cons_step (by omega) (unqStep_U8 h1 t)

theorem unqTail_escA (t : List Nat) :
    unqTail (0x5C :: 0x61 :: t) = Option.map (fun l => 7 :: l) (unqTail t) := by
  rw [unqTail_cons_step (by omega)
    (show unqStep (0x5C :: 0x61 :: t) = some ([7], t) by simp [unqStep])]
  rfl

theorem unqTail_escB (t : List Nat) :
    unqTail (0x5C :: 0x62 :: t) = Option.map (fun l => 8 :: l) (unqTail t) := by
  rw [unqTail_cons_step (by omega)
    (show unqStep (0x5C :: 0x62 :: t) = some ([8], t) by simp [unqStep])]
  rfl

theorem unqTail_escF (t : List Nat) :
    unqTail (0x5C :: 0x66 :: t) = Option.map (fun l => 12 :: l) (unqTail t) := by
  rw [unqTail_cons_step (by omega)
    (show unqStep (0x5C :: 0x66 :: t) = some ([12], t) by simp [unqStep])]
  rfl

theorem unqTail_escN (t : List Nat) :
    unqTail (0x5C :: 0x6E :: t) = Option.map (fun l => 10 :: l) (unqTail t) := by
  rw [unqTail_cons_step (by omega)
    (show unqStep (0x5C :: 0x6E :: t) = some ([10], t) by simp [unqStep])]
  rfl

theorem unqTail_escR (t : List Nat) :
    unqTail (0x5C :: 0x72 :: t) = Option.map (fun l => 13 :: l) (unqTail t) := by
  rw [unqTail_cons_step (by omega)
    (show unqStep (0x5C :: 0x72 :: t) = some ([13], t) by simp [unqStep])]
  rfl

theorem unqTail_escT (t : List Nat) :
    unqTail (0x5C :: 0x74 :: t) = Option.map (fun l => 9 :: l) (unqTail t) := by
  rw [unqTail_cons_step (by omega)
    (show unqStep (0x5C :: 0x74 :: t) = some ([9], t) by simp [unqStep])]
  rfl

theorem unqTail_escV (t : List Nat) :
    unqTail (0x5C :: 0x76 :: t) = Option.map (fun l => 11 :: l) (unqTail t) := by
  rw [unqTail_cons_step (by omega)
    (show unqStep (0x5C :: 0x76 :: t) = some ([11], t) by simp [unqStep])]
  rfl

theorem unqTail_escBack (t : List Nat) :
    unqTail (0x5C :: 0x5C :: t) = Option.map (fun l => 0x5C :: l) (unqTail t) := by
  rw [unqTail_cons_step (by omega)
    (show unqStep (0x5C :: 0x5C :: t) = some ([0x5C], t) by simp [unqStep])]
  rfl

theorem unqTail_escQuote (t : List Nat) :
    unqTail (0x5C :: 0x22 :: t) = Option.map (fun l => 0x22 :: l) (unqTail t) := by
  rw [unqTail_cons_step (by omega)
    (show unqStep (0x5C :: 0x22 :: t) = some ([0x22], t) by simp [unqStep])]
  rfl

theorem unq_escRune_ascii (u : GoUnicode) {b : Nat} (hb : b < 0x80) (t : List Nat) :
    unqTail (escRune u b ++ t) = Option.map (fun l => b :: l) (unqTail t) := by
  by_cases hq : b = 0x22 ∨ b = 0x5C
  · rcases hq with h | h <;> subst h
    · rw [show escRune u 0x22 = [0x5C, 0x22] by simp [escRune], List.cons_append,
        List.cons_append, List.nil_append]
      exact unqTail_escQuote t
    · rw [show escRune u 0x5C = [0x5C, 0x5C] by simp [escRune], List.cons_append,
        List.cons_append, List.nil_append]
      exact unqTail_escBack t
  · push_neg at hq
    obtain ⟨hq1, hq2⟩ := hq
    by_cases hp : 0x20 ≤ b ∧ b ≤ 0x7E
    · have hv : validRune b = true := by simp [validRune]; omega
      have hpr : isPrintGo u b = true := by
        unfold isPrintGo
        rw [if_pos hb]
        simp [hp.1, hp.2]
      have he : escRune u b = [b] := by
        unfold escRune
        rw [if_neg (by simp [hq1, hq2]), if_pos hpr]
        unfold utf8Encode
        simp only [hv, if_true]
        rw [if_pos hb]
      rw [he, List.cons_append, List.nil_append]
      exact unqTail_raw hq1 hq2 t
    · have hpr : isPrintGo u b = false := by
        unfold isPrintGo
        rw [if_pos hb]
        simp only [Bool.and_eq_false_iff]
        rcases Decidable.not_and_iff_or_not.mp hp with h | h
        · left
          simp [h]
        · right
          simp [h]
      by_cases h7 : b = 7
      · subst h7
        rw [show escRune u 7 = [0x5C, 0x61] by simp [escRune, hpr], List.cons_append,
          List.cons_append, List.nil_append]
        exact unqTail_escA t
      by_cases h8 : b = 8
      · subst h8
        rw [show escRune u 8 = [0x5C, 0x62] by simp [escRune, hpr], List.cons_append,
          List.cons_append, List.nil_append]
        exact unqTail_escB t
      by_cases h12 : b = 12
      · subst h12
        rw [show escRune u 12 = [0x5C, 0x66] by simp [escRune, hpr], List.cons_append,
          List.cons_append, List.nil_append]
        exact unqTail_escF t
      by_cases h10 : b = 10
      · subst h10
        rw [show escRune u 10 = [0x5C, 0x6E] by simp [escRune, hpr], List.cons_append,
          List.cons_append, List.nil_append]
        exact unqTail_escN t
      by_cases h13 : b = 13
      · subst h13
        rw [show escRune u 13 = [0x5C, 0x72] by simp [escRune, hpr], List.cons_append,
          List.cons_append, List.nil_append]
        exact unqTail_escR t
      by_cases h9 : b = 9
      · subst h9
        rw [show escRune u 9 = [0x5C, 0x74] by simp [escRune, hpr], List.cons_append,
          List.cons_append, List.nil_append]
        exact unqTail_escT t
      by_cases h11 : b = 11
      · subst h11
        rw [show escRune u 11 = [0x5C, 0x76] by simp [escRune, hpr], List.cons_append,
          List.cons_append, List.nil_append]
        exact unqTail_escV t
      have he : escRune u b = [0x5C, 0x78, hexDig (b / 16), hexDig (b % 16)] := by
        unfold escRune
        rw [if_neg (by simp [hq1, hq2]), if_neg (by simp [hpr]), if_neg h7, if_neg h8,
          if_neg h12, if_neg h10, if_neg h13, if_neg h9, if_neg h11,
          if_pos (show (decide (b < 0x20) || decide (b = 0x7F)) = true by
            simp only [Bool.or_eq_true, decide_eq_true_eq]
            omega)]
      rw [he, List.cons_append, List.cons_append, List.cons_append, List.cons_append,
        List.nil_append]
      exact unqTail_hexesc (by omega) t

theorem utf8Encode_not_special {r : Nat} (hv : validRune r = true) (hr : 0x80 ≤ r) :
    ∀ x ∈ utf8Encode r, x ≠ 0x22 ∧ x ≠ 0x5C := by
  intro x hx
  simp only [utf8Encode] at hx
  rw [if_pos hv] at hx
  split_ifs at hx with w1 w2 w3
  · simp at hx
    omega
  · simp at hx
    omega
  · simp at hx
    omega
  · simp at hx
    omega

theorem unq_escRune_big (u : GoUnicode) {r : Nat} (hv : validRune r = true)
    (hr : 0x80 ≤ r) (t : List Nat) :
    unqTail (escRune u r ++ t) = Option.map (fun l => utf8Encode r ++ l) (unqTail t) := by
  unfold escRune
  rw [if_neg (show ¬(decide (r = 0x22) || decide (r = 0x5C)) = true by
    simp only [Bool.or_eq_true, decide_eq_true_eq]
    omega)]
  by_cases hp : isPrintGo u r = true
  · rw [if_pos hp]
    exact unqTail_rawList (utf8Encode_not_special hv hr) t
  · rw [if_neg hp, if_neg (by omega), if_neg (by omega), if_neg (by omega),
      if_neg (by omega), if_neg (by omega), if_neg (by omega), if_neg (by omega),
      if_neg (show ¬(decide (r < 0x20) || decide (r = 0x7F)) = true by
        simp only [Bool.or_eq_true, decide_eq_true_eq]
        omega),
      if_neg (show ¬(!validRune r) = true by simp [hv])]
    by_cases h16 : r < 0x10000
    · rw [if_pos h16]
      simp only [List.cons_append, List.nil_append, List.append_assoc]
      exact unqTail_u4 h16 t
    · have hle : r ≤ 0x10FFFF := by
        simp only [validRune, Bool.or_eq_true, Bool.and_eq_true, decide_eq_true_eq] at hv
        omega
      rw [if_neg h16]
      simp only [List.cons_append, List.nil_append, List.append_assoc]
      exact unqTail_U8 hle t

theorem utf8Encode_inv2 {b b1 : Nat} (h1 : 0xC2 ≤ b) (h2 : b ≤ 0xDF)
    (h3 : 0x80 ≤ b1) (h4 : b1 ≤ 0xBF) :
    validRune ((b - 0xC0) * 64 + (b1 - 0x80)) = true ∧
    0x80 ≤ (b - 0xC0) * 64 + (b1 - 0x80) ∧
    utf8Encode ((b - 0xC0) * 64 + (b1 - 0x80)) = [b, b1] := by
  have hv : validRune ((b - 0xC0) * 64 + (b1 - 0x80)) = true := by
    simp only [validRune, Bool.or_eq_true, Bool.and_eq_true, decide_eq_true_eq]
    omega
  refine ⟨hv, by omega, ?_⟩
  simp only [utf8Encode]
  rw [if_pos hv, if_neg (by omega), if_pos (by omega)]
  simp only [List.cons.injEq, and_true]
  constructor <;> omega

theorem utf8Encode_inv3 {b b1 b2 : Nat} (h1 : 0xE0 ≤ b) (h2 : b ≤ 0xEF)
    (h3 : 0x80 ≤ b1) (h4 : b1 ≤ 0xBF) (h5 : 0x80 ≤ b2) (h6 : b2 ≤ 0xBF)
    (h7 : b = 0xE0 → 0xA0 ≤ b1) (h8 : b = 0xED → b1 ≤ 0x9F) :
    validRune ((b - 0xE0) * 4096 + (b1 - 0x80) * 64 + (b2 - 0x80)) = true ∧
    0x80 ≤ (b - 0xE0) * 4096 + (b1 - 0x80) * 64 + (b2 - 0x80) ∧
    utf8Encode ((b - 0xE0) * 4096 + (b1 - 0x80) * 64 + (b2 - 0x80)) = [b, b1, b2] := by
  have hge : 0x800 ≤ (b - 0xE0) * 4096 + (b1 - 0x80) * 64 + (b2 - 0x80) := by
    rcases eq_or_ne b 0xE0 with hE | hE
    · have := h7 hE
      omega
    · omega
  have hv : validRune ((b - 0xE0) * 4096 + (b1 - 0x80) * 64 + (b2 - 0x80)) = true := by
    simp only [validRune, Bool.or_eq_true, Bool.and_eq_true, decide_eq_true_eq]
    rcases eq_or_ne b 0xED with hE | hE
    · have := h8 hE
      omega
    · omega
  refine ⟨hv, by omega, ?_⟩
  simp only [utf8Encode]
  rw [if_pos hv, if_neg (by omega), if_neg (by omega), if_pos (by omega)]
  simp only [List.cons.injEq, and_true]
  refine ⟨by omega, by omega, by omega⟩

theorem utf8Encode_inv4 {b b1 b2 b3 : Nat} (h1 : 0xF0 ≤ b) (h2 : b ≤ 0xF4)
    (h3 : 0x80 ≤ b1) (h4 : b1 ≤ 0xBF) (h5 : 0x80 ≤ b2) (h6 : b2 ≤ 0xBF)
    (h7 : 0x80 ≤ b3) (h8 : b3 ≤ 0xBF)
    (h9 : b = 0xF0 → 0x90 ≤ b1) (h10 : b = 0xF4 → b1 ≤ 0x8F) :
    validRune ((b - 0xF0) * 262144 + (b1 - 0x80) * 4096 + (b2 - 0x80) * 64 + (b3 - 0x80)) = true ∧
    0x80 ≤ (b - 0xF0) * 262144 + (b1 - 0x80) * 4096 + (b2 - 0x80) * 64 + (b3 - 0x80) ∧
    utf8Encode ((b - 0xF0) * 262144 + (b1 - 0x80) * 4096 + (b2 - 0x80) * 64 + (b3 - 0x80)) =
      [b, b1, b2, b3] := by
  have hge : 0x10000 ≤ (b - 0xF0) * 262144 + (b1 - 0x80) * 4096 + (b2 - 0x80) * 64 + (b3 - 0x80) := by
    rcases eq_or_ne b 0xF0 with hE | hE
    · have := h9 hE
      omega
    · omega
  have hle : (b - 0xF0) * 262144 + (b1 - 0x80) * 4096 + (b2 - 0x80) * 64 + (b3 - 0x80) ≤ 0x10FFFF := by
    rcases eq_or_ne b 0xF4 with hE | hE
    · have := h10 hE
      omega
    · omega
  have hv : validRune ((b - 0xF0) * 262144 + (b1 - 0x80) * 4096 + (b2 - 0x80) * 64 + (b3 - 0x80)) = true := by
    simp only [validRune, Bool.or_eq_true, Bool.and_eq_true, decide_eq_true_eq]
    omega
  refine ⟨hv, by omega, ?_⟩
  simp only [utf8Encode]
  rw [if_pos hv, if_neg (by omega), if_neg (by omega), if_neg (by omega)]
  simp only [List.cons.injEq, and_true]
  refine ⟨by omega, by omega, by omega, by omega⟩

theorem decodeRune_spec {b : Nat} {rest : List Nat} {r w : Nat}
    (hb : 0x80 ≤ b) (hd : decodeRune (b :: rest) = (r, w)) (hw : w ≠ 1) :
    validRune r = true ∧ 0x80 ≤ r ∧ utf8Encode r = (b :: rest).take w := by
  simp only [decodeRune] at hd
  rw [if_neg (by omega)] at hd
  by_cases h1 : b < 0xC2
  · rw [if_pos h1] at hd
    injection hd with hr1 hw1
    omega
  rw [if_neg h1] at hd
  by_cases h2 : b ≤ 0xDF
  · rw [if_pos h2] at hd
    match rest with
    | [] =>
      dsimp only at hd
      injection hd with hr1 hw1
      omega
    | b1 :: rest1 =>
      dsimp only at hd
      by_cases hc : 0x80 ≤ b1 ∧ b1 ≤ 0xBF
      · rw [if_pos hc] at hd
        injection hd with hr1 hw1
        subst hr1
        subst hw1
        obtain ⟨hv, hge, henc⟩ := utf8Encode_inv2 (by omega) h2 hc.1 hc.2
        exact ⟨hv, hge, henc.trans rfl⟩
      · rw [if_neg hc] at hd
        injection hd with hr1 hw1
        omega
  rw [if_neg h2] at hd
  by_cases h3 : b ≤ 0xEF
  · rw [if_pos h3] at hd
    match rest with
    | [] =>
      dsimp only at hd
      injection hd with hr1 hw1
      omega
    | [b1] =>
      dsimp only at hd
      injection hd with hr1 hw1
      omega
    | b1 :: b2 :: rest2 =>
      dsimp only at hd
      by_cases hc : (if b = 0xE0 then 0xA0 else 0x80) ≤ b1 ∧
          b1 ≤ (if b = 0xED then 0x9F else 0xBF) ∧ 0x80 ≤ b2 ∧ b2 ≤ 0xBF
      · rw [if_pos hc] at hd
        obtain ⟨hc1, hc2, hc3, hc4⟩ := hc
        injection hd with hr1 hw1
        subst hr1
        subst hw1
        have hb1lo : 0x80 ≤ b1 := by
          by_cases hE : b = 0xE0
          · rw [if_pos hE] at hc1
            omega
          · rw [if_neg hE] at hc1
            omega
        have hb1hi : b1 ≤ 0xBF := by
          by_cases hE : b = 0xED
          · rw [if_pos hE] at hc2
            omega
          · rw [if_neg hE] at hc2
            omega
        have h7 : b = 0xE0 → 0xA0 ≤ b1 := fun hE => by
          rw [if_pos hE] at hc1
          exact hc1
        have h8 : b = 0xED → b1 ≤ 0x9F := fun hE => by
          rw [if_pos hE] at hc2
          exact hc2
        obtain ⟨hv, hge, henc⟩ := utf8Encode_inv3 (by omega) h3 hb1lo hb1hi hc3 hc4 h7 h8
        exact ⟨hv, hge, henc.trans rfl⟩
      · rw [if_neg hc] at hd
        injection hd with hr1 hw1
        omega
  rw [if_neg h3] at hd
  by_cases h4 : b ≤ 0xF4
  · rw [if_pos h4] at hd
    match rest with
    | [] =>
      dsimp only at hd
      injection hd with hr1 hw1
      omega
    | [b1] =>
      dsimp only at hd
      injection hd with hr1 hw1
      omega
    | [b1, b2] =>
      dsimp only at hd
      injection hd with hr1 hw1
      omega
    | b1 :: b2 :: b3 :: rest3 =>
      dsimp only at hd
      by_cases hc : (if b = 0xF0 then 0x90 else 0x80) ≤ b1 ∧
          b1 ≤ (if b = 0xF4 then 0x8F else 0xBF) ∧ 0x80 ≤ b2 ∧ b2 ≤ 0xBF ∧
          0x80 ≤ b3 ∧ b3 ≤ 0xBF
      · rw [if_pos hc] at hd
        obtain ⟨hc1, hc2, hc3, hc4, hc5, hc6⟩ := hc
        injection hd with hr1 hw1
        subst hr1
        subst hw1
        have hb1lo : 0x80 ≤ b1 := by
          by_cases hE : b = 0xF0
          · rw [if_pos hE] at hc1
            omega
          · rw [if_neg hE] at hc1
            omega
        have hb1hi : b1 ≤ 0xBF := by
          by_cases hE : b = 0xF4
          · rw [if_pos hE] at hc2
            omega
          · rw [if_neg hE] at hc2
            omega
        have h9 : b = 0xF0 → 0x90 ≤ b1 := fun hE => by
          rw [if_pos hE] at hc1
          exact hc1
        have h10 : b = 0xF4 → b1 ≤ 0x8F := fun hE => by
          rw [if_pos hE] at hc2
          exact hc2
        obtain ⟨hv, hge, henc⟩ :=
          utf8Encode_inv4 (by omega) h4 hb1lo hb1hi hc3 hc4 hc5 hc6 h9 h10
        exact ⟨hv, hge, henc.trans rfl⟩
      · rw [if_neg hc] at hd
        injection hd with hr1 hw1
        omega
  · rw [if_neg h4] at hd
    injection hd with hr1 hw1
    omega

theorem utf8Encode_ne_nil (r : Nat) : utf8Encode r ≠ [] := by
  simp only [utf8Encode]
  split_ifs <;> simp

theorem unq_quoteBodyAux (u : GoUnicode) :
    ∀ (fuel : Nat) (s t : List Nat), s.length ≤ fuel → (∀ x ∈ s, x < 256) →
      unqTail (quoteBodyAux u fuel s ++ t) = Option.map (fun l => s ++ l) (unqTail t) := by
  intro fuel
  induction fuel with
  | zero =>
    intro s t hs hb
    have hnil : s = [] := List.eq_nil_of_length_eq_zero (by omega)
    subst hnil
    simp [quoteBodyAux]
  | succ f ih =>
    intro s t hs hb
    cases s with
    | nil => simp [quoteBodyAux]
    | cons b rest =>
      have hb0 : b < 256 := hb b (List.mem_cons_self _ _)
      have hbr : ∀ x ∈ rest, x < 256 := fun x hx => hb x (List.mem_cons_of_mem _ hx)
      simp only [List.length_cons] at hs
      by_cases hlt : b < 0x80
      · rw [show quoteBodyAux u (f + 1) (b :: rest) = escRune u b ++ quoteBodyAux u f rest by
          simp only [quoteBodyAux]
          rw [if_pos hlt]]
        rw [List.append_assoc, unq_escRune_ascii u hlt, ih rest t (by omega) hbr]
        simp only [Option.map_map]
        rfl
      · rcases hdec : decodeRune (b :: rest) with ⟨r, w⟩
        by_cases hw : w = 1
        · rw [show quoteBodyAux u (f + 1) (b :: rest)
              = [0x5C, 0x78, hexDig (b / 16), hexDig (b % 16)] ++ quoteBodyAux u f rest by
            simp only [quoteBodyAux]
            rw [if_neg hlt, hdec]
            dsimp only
            rw [if_pos hw]]
          rw [List.append_assoc]
          simp only [List.cons_append, List.nil_append]
          rw [unqTail_hexesc hb0, ih rest t (by omega) hbr]
          simp only [Option.map_map]
          rfl
        · obtain ⟨hv, hr80, henc⟩ := decodeRune_spec (by omega) hdec hw
          have hnenil : utf8Encode r ≠ [] := utf8Encode_ne_nil r
          have hw0 : w ≠ 0 := by
            intro h0
            rw [h0, List.take_zero] at henc
            exact hnenil henc
          rw [show quoteBodyAux u (f + 1) (b :: rest)
              = escRune u r ++ quoteBodyAux u f (rest.drop (w - 1)) by
            simp only [quoteBodyAux]
            rw [if_neg hlt, hdec]
            dsimp only
            rw [if_neg hw]]
          rw [List.append_assoc, unq_escRune_big u hv hr80,
            ih (rest.drop (w - 1)) t
              (by simp only [List.length_drop]; omega)
              (fun x hx => hbr x (List.mem_of_mem_drop hx))]
          simp only [Option.map_map]
          congr 1
          funext l
          show utf8Encode r ++ (rest.drop (w - 1) ++ l) = (b :: rest) ++ l
          rw [← List.append_assoc, henc]
          congr 1
          have hdw : (b :: rest).drop w = rest.drop (w - 1) := by
            cases w with
            | zero => exact absurd rfl hw0
            | succ w2 => rfl
          rw [← hdw, List.take_append_drop]

theorem unq_quoteBody (u : GoUnicode) (s t : List Nat) (hb : ∀ x ∈ s, x < 256) :
    unqTail (quoteBody u s ++ t) = Option.map (fun l => s ++ l) (unqTail t) :=
  unq_quoteBodyAux u s.length s t (le_refl _) hb

theorem unq_quoteChunks (u : GoUnicode) (cs : List (List Nat)) (t : List Nat)
    (hb : ∀ c ∈ cs, ∀ x ∈ c, x < 256) :
    unqTail ((cs.map (quoteBody u)).flatten ++ t) =
      Option.map (fun l => cs.flatten ++ l) (unqTail t) := by
  induction cs with
  | nil => simp
  | cons c cs2 ih =>
    simp only [List.map_cons, List.flatten_cons, List.append_assoc]
    rw [unq_quoteBody u c _ (hb c (List.mem_cons_self _ _)),
      ih (fun c2 hc => hb c2 (List.mem_cons_of_mem _ hc))]
    simp only [Option.map_map]
    rfl

theorem unqTail_closing : unqTail [0x22] = some [] := by
  rfl

theorem flatten_chunksAux : ∀ (f : Nat) (s : List Nat),
    s.length ≤ f → (chunksAux f s).flatten = s := by
  intro f
  induction f with
  | zero =>
    intro s h
    have hnil : s = [] := List.eq_nil_of_length_eq_zero (by omega)
    subst hnil
    rfl
  | succ g ih =>
    intro s h
    cases s with
    | nil => rfl
    | cons b rest =>
      show ((b :: rest).take BUFSIZE :: chunksAux g ((b :: rest).drop BUFSIZE)).flatten
        = b :: rest
      rw [List.flatten_cons,
        ih _ (by simp only [BUFSIZE, List.length_drop, List.length_cons] at h ⊢; omega)]
      exact List.take_append_drop _ _

theorem flatten_chunksB (s : List Nat) : (chunksB s).flatten = s :=
  flatten_chunksAux s.length s (le_refl _)

/-- C2: un-escaping the literal emitted by `quoteFile` according to Go's
string-literal grammar reproduces the original bytes exactly, for every
byte sequence (bytes are values below 256, including NUL, quote, backslash
and newline) and regardless of how the contents were split into chunks:
the first conjunct covers an arbitrary chunking of the contents, the
second the exact `BUFSIZE` chunking `quoteFile` performs. -/
theorem c2_roundtrip :
    (∀ (u : GoUnicode) (cs : List (List Nat)) (s : List Nat),
        (∀ c ∈ cs, ∀ x ∈ c, x < 256) → cs.flatten = s →
        unquote (0x22 :: ((cs.map (quoteBody u)).flatten ++ [0x22])) = some s)
    ∧ (∀ (u : GoUnicode) (s : List Nat), (∀ x ∈ s, x < 256) →
        unquote (quoteLit u s) = some s) := by
  have key : ∀ (u : GoUnicode) (cs : List (List Nat)),
      (∀ c ∈ cs, ∀ x ∈ c, x < 256) →
      unquote (0x22 :: ((cs.map (quoteBody u)).flatten ++ [0x22])) = some cs.flatten := by
    intro u cs hb
    show unqTail ((cs.map (quoteBody u)).flatten ++ [0x22]) = some cs.flatten
    rw [unq_quoteChunks u cs [0x22] hb, unqTail_closing]
    simp
  constructor
  · intro u cs s hb hf
    rw [← hf]
    exact key u cs hb
  · intro u s hb
    have hbc : ∀ c ∈ chunksB s, ∀ x ∈ c, x < 256 := by
      intro c hc x hx
      refine hb x ?_
      rw [← flatten_chunksB s]
      exact List.mem_flatten.mpr ⟨c, hc, hx⟩
    have hk := key u (chunksB s) hbc
    rw [flatten_chunksB] at hk
    exact hk

/-- C2 witness: the round-trip theorem applied to contents containing a
NUL byte, a quote, a backslash and a newline, split unevenly into two
chunks. -/
theorem c2_witness :
    unquote (0x22 :: ((([[0, 34], [92, 10, 65]] : List (List Nat)).map
        (quoteBody asciiTables)).flatten ++ [0x22])) =
      some [0, 34, 92, 10, 65] :=
  c2_roundtrip.1 asciiTables [[0, 34], [92, 10, 65]] [0, 34, 92, 10, 65]
    (by decide) (by decide)

theorem chunksAux_nil_list (f : Nat) : chunksAux f [] = [] := by
  cases f <;> rfl

theorem chunksAux_cons (f : Nat) (b : Nat) (rest : List Nat) :
    chunksAux (f + 1) (b :: rest) =
      (b :: rest).take BUFSIZE :: chunksAux f ((b :: rest).drop BUFSIZE) := rfl

theorem chunksAux_small : ∀ (f : Nat) (l : List Nat), l ≠ [] →
    l.length ≤ BUFSIZE → 1 ≤ f → chunksAux f l = [l] := by
  intro f l hne hlen hf
  cases f with
  | zero => omega
  | succ g =>
    cases l with
    | nil => exact absurd rfl hne
    | cons b rest =>
      rw [chunksAux_cons, List.take_of_length_le hlen,
        List.drop_eq_nil_of_le hlen, chunksAux_nil_list]

theorem chunksB_two {a b : List Nat} (ha : a.length = BUFSIZE) (hb : b ≠ [])
    (hb2 : b.length ≤ BUFSIZE) : chunksB (a ++ b) = [a, b] := by
  cases a with
  | nil => simp [BUFSIZE] at ha
  | cons a0 a2 =>
    show chunksAux ((a0 :: a2) ++ b).length ((a0 :: a2) ++ b) = [a0 :: a2, b]
    have hlen : ((a0 :: a2) ++ b).length = (a2.length + b.length) + 1 := by
      simp [List.length_append, List.length_cons]
    rw [hlen, List.cons_append, chunksAux_cons, ← List.cons_append, ← ha,
      List.take_left, List.drop_left]
    rw [chunksAux_small (a2.length + b.length) b hb hb2
      (by cases b with
        | nil => exact absurd rfl hb
        | cons x xs => simp only [List.length_cons]; omega)]

theorem quoteBody_cons_ascii (u : GoUnicode) {b : Nat} (hb : b < 0x80)
    (rest : List Nat) :
    quoteBody u (b :: rest) = escRune u b ++ quoteBody u rest := by
  show quoteBodyAux u (rest.length + 1) (b :: rest) = _
  simp only [quoteBodyAux]
  rw [if_pos hb]
  rfl

theorem quoteBody_append_ascii (u : GoUnicode) {a : List Nat} (c : List Nat)
    (ha : ∀ x ∈ a, x < 0x80) :
    quoteBody u (a ++ c) = quoteBody u a ++ quoteBody u c := by
  induction a with
  | nil => rfl
  | cons b a2 ih =>
    rw [List.cons_append, quoteBody_cons_ascii u (ha b (List.mem_cons_self _ _)),
      quoteBody_cons_ascii u (ha b (List.mem_cons_self _ _)),
      ih (fun x hx => ha x (List.mem_cons_of_mem _ hx)), List.append_assoc]

theorem chunksAux_quote_ascii (u : GoUnicode) : ∀ (f : Nat) (s : List Nat),
    s.length ≤ f → (∀ x ∈ s, x < 0x80) →
    ((chunksAux f s).map (quoteBody u)).flatten = quoteBody u s := by
  intro f
  induction f with
  | zero =>
    intro s h _
    have hnil : s = [] := List.eq_nil_of_length_eq_zero (by omega)
    subst hnil
    rfl
  | succ g ih =>
    intro s h ha
    cases s with
    | nil => rfl
    | cons b rest =>
      rw [chunksAux_cons, List.map_cons, List.flatten_cons,
        ih _ (by simp only [BUFSIZE, List.length_drop, List.length_cons] at h ⊢; omega)
          (fun x hx => ha x (List.mem_of_mem_drop hx)),
        ← quoteBody_append_ascii u _ (fun x hx => ha x (List.mem_of_mem_take hx)),
        List.take_append_drop]

/-- C10 counterexample: a 4097-byte file consisting of 4095 `A` bytes
followed by the two-byte UTF-8 encoding of `é` (0xC3 0xA9) splits so that
the 4096-byte chunk boundary falls inside the rune: the chunked escaper
sees two ill-formed fragments and emits `\xc3\xa9`, while the one-shot
escaper decodes the rune and emits `é` (the texts differ for the real
Unicode tables as well: there the one-shot escaper emits the printable
rune itself). -/
theorem c10_counterexample :
    chunkedBody asciiTables (List.replicate 4095 65 ++ [0xC3, 0xA9]) ≠
      oneShotBody asciiTables (List.replicate 4095 65 ++ [0xC3, 0xA9]) := by
  have hrep : ∀ x ∈ List.replicate 4095 (65 : Nat), x < 0x80 := by
    intro x hx
    rw [List.eq_of_mem_replicate hx]
    omega
  have hsplit : List.replicate 4095 (65 : Nat) ++ [0xC3, 0xA9]
      = (List.replicate 4095 65 ++ [0xC3]) ++ [0xA9] := by
    rw [List.append_assoc]
    rfl
  have hch : chunksB ((List.replicate 4095 65 ++ [0xC3]) ++ [0xA9])
      = [List.replicate 4095 65 ++ [0xC3], [0xA9]] :=
    chunksB_two (by rw [List.length_append, List.length_replicate]; rfl) (by decide) (by decide)
  have hL : chunkedBody asciiTables (List.replicate 4095 65 ++ [0xC3, 0xA9])
      = quoteBody asciiTables (List.replicate 4095 65)
        ++ ([92, 120, 99, 51] ++ ([92, 120, 97, 57] ++ [])) := by
    unfold chunkedBody
    rw [hsplit, hch]
    simp only [List.map_cons, List.map_nil, List.flatten_cons, List.flatten_nil,
      List.append_nil]
    rw [quoteBody_append_ascii asciiTables [0xC3] hrep]
    rw [show quoteBody asciiTables [0xC3] = [92, 120, 99, 51] by decide,
      show quoteBody asciiTables [0xA9] = [92, 120, 97, 57] by decide]
    simp only [List.append_nil, List.append_assoc]
  have hR : oneShotBody asciiTables (List.replicate 4095 65 ++ [0xC3, 0xA9])
      = quoteBody asciiTables (List.replicate 4095 65)
        ++ [92, 117, 48, 48, 101, 57] := by
    unfold oneShotBody
    rw [quoteBody_append_ascii asciiTables [0xC3, 0xA9] hrep]
    rw [show quoteBody asciiTables [0xC3, 0xA9] = [92, 117, 48, 48, 101, 57] by decide]
  intro heq
  rw [hL, hR] at heq
  exact absurd (List.append_cancel_left heq) (by decide)


theorem utf8Encode_len_ge2 {r : Nat} (hv : validRune r = true) (hr : 0x80 ≤ r) :
    2 ≤ (utf8Encode r).length := by
  simp only [utf8Encode]
  rw [if_pos hv]
  split_ifs with w1 w2 w3
  · omega
  · simp
  · simp
  · simp

theorem decodeRune_encode {r : Nat} (hv : validRune r = true) (hr : 0x80 ≤ r)
    (t : List Nat) :
    decodeRune (utf8Encode r ++ t) = (r, (utf8Encode r).length) := by
  have hv' : r < 0xD800 ∨ (0xE000 ≤ r ∧ r ≤ 0x10FFFF) := by
    simpa only [validRune, Bool.or_eq_true, Bool.and_eq_true, decide_eq_true_eq] using hv
  simp only [utf8Encode]
  rw [if_pos hv, if_neg (by omega : ¬ r < 0x80)]
  by_cases h2 : r < 0x800
  · rw [if_pos h2]
    simp only [List.cons_append, List.nil_append, List.length_cons, List.length_nil]
    simp only [decodeRune]
    rw [if_neg (by omega), if_neg (by omega), if_pos (by omega), if_pos (by omega)]
    simp only [Prod.mk.injEq, and_true]
    omega
  · rw [if_neg h2]
    by_cases h3 : r < 0x10000
    · rw [if_pos h3]
      simp only [List.cons_append, List.nil_append, List.length_cons, List.length_nil]
      simp only [decodeRune]
      rw [if_neg (by omega), if_neg (by omega), if_neg (by omega), if_pos (by omega),
        if_pos (by split_ifs <;> omega)]
      simp only [Prod.mk.injEq, and_true]
      omega
    · rw [if_neg h3]
      simp only [List.cons_append, List.nil_append, List.length_cons, List.length_nil]
      simp only [decodeRune]
      rw [if_neg (by omega), if_neg (by omega), if_neg (by omega), if_neg (by omega),
        if_pos (by omega), if_pos (by split_ifs <;> omega)]
      simp only [Prod.mk.injEq, and_true]
      omega

theorem quoteBodyAux_nil (u : GoUnicode) : ∀ f : Nat, quoteBodyAux u f [] = [] := by
  intro f
  cases f <;> rfl

theorem quoteBodyAux_fuel (u : GoUnicode) : ∀ (f1 f2 : Nat) (s : List Nat),
    s.length ≤ f1 → s.length ≤ f2 → quoteBodyAux u f1 s = quoteBodyAux u f2 s := by
  intro f1
  induction f1 with
  | zero =>
    intro f2 s h1 h2
    have hnil : s = [] := List.eq_nil_of_length_eq_zero (by omega)
    subst hnil
    rw [quoteBodyAux_nil, quoteBodyAux_nil]
  | succ f ih =>
    intro f2 s h1 h2
    cases s with
    | nil => rw [quoteBodyAux_nil, quoteBodyAux_nil]
    | cons b rest =>
      cases f2 with
      | zero => simp [List.length_cons] at h2
      | succ g =>
        simp only [List.length_cons] at h1 h2
        show quoteBodyAux u (f + 1) (b :: rest) = quoteBodyAux u (g + 1) (b :: rest)
        unfold quoteBodyAux
        by_cases hb : b < 0x80
        · rw [if_pos hb, if_pos hb, ih g rest (by omega) (by omega)]
        · rw [if_neg hb, if_neg hb]
          dsimp only
          by_cases hd : (decodeRune (b :: rest)).2 = 1
          · rw [if_pos hd, if_pos hd, ih g rest (by omega) (by omega)]
          · rw [if_neg hd, if_neg hd,
              ih g (rest.drop ((decodeRune (b :: rest)).2 - 1))
                (by simp only [List.length_drop]; omega)
                (by simp only [List.length_drop]; omega)]

theorem quoteBody_cons_hex (u : GoUnicode) {b : Nat} {rest : List Nat}
    (hb : ¬ b < 0x80) (hd : (decodeRune (b :: rest)).2 = 1) :
    quoteBody u (b :: rest) =
      [0x5C, 0x78, hexDig (b / 16), hexDig (b % 16)] ++ quoteBody u rest := by
  show quoteBodyAux u (rest.length + 1) (b :: rest) = _
  unfold quoteBodyAux
  rw [if_neg hb]
  dsimp only
  rw [if_pos hd]
  rfl

theorem quoteBody_cons_rune (u : GoUnicode) {b : Nat} {rest : List Nat} {r w : Nat}
    (hb : ¬ b < 0x80) (hd : decodeRune (b :: rest) = (r, w)) (hw : w ≠ 1) :
    quoteBody u (b :: rest) = escRune u r ++ quoteBody u (rest.drop (w - 1)) := by
  show quoteBodyAux u (rest.length + 1) (b :: rest) = _
  unfold quoteBodyAux
  rw [if_neg hb]
  dsimp only
  rw [hd]
  dsimp only
  rw [if_neg hw]
  rw [quoteBodyAux_fuel u rest.length (rest.drop (w - 1)).length (rest.drop (w - 1))
    (by simp only [List.length_drop]; omega) (le_refl _)]
  rfl

theorem quoteBody_step_prefix (u : GoUnicode) (b : Nat) (arest c : List Nat)
    (hle : quoteWidth (b :: (arest ++ c)) ≤ arest.length + 1) :
    ∃ frag : List Nat,
      quoteBody u (b :: (arest ++ c))
        = frag ++ quoteBody u ((b :: arest).drop (quoteWidth (b :: (arest ++ c))) ++ c) ∧
      quoteBody u (b :: arest)
        = frag ++ quoteBody u ((b :: arest).drop (quoteWidth (b :: (arest ++ c)))) := by
  by_cases hb : b < 0x80
  · have hw : quoteWidth (b :: (arest ++ c)) = 1 := by
      unfold quoteWidth
      dsimp only
      rw [if_pos hb]
    rw [hw]
    refine ⟨escRune u b, ?_, ?_⟩
    · rw [quoteBody_cons_ascii u hb]
      rfl
    · rw [quoteBody_cons_ascii u hb]
      rfl
  · rcases hdec : decodeRune (b :: (arest ++ c)) with ⟨r, w0⟩
    by_cases hw1 : w0 = 1
    · subst hw1
      have hw : quoteWidth (b :: (arest ++ c)) = 1 := by
        unfold quoteWidth
        dsimp only
        rw [if_neg hb, hdec]
        rfl
      have herr2 : (decodeRune (b :: arest)).2 = 1 := by
        rcases hdd : decodeRune (b :: arest) with ⟨r2, w2⟩
        by_cases hne : w2 = 1
        · subst hne
          rfl
        · exfalso
          obtain ⟨hv2, hr2, henc2⟩ := decodeRune_spec (by omega) hdd hne
          have hlen2 := utf8Encode_len_ge2 hv2 hr2
          have hsplit2 : b :: (arest ++ c) = utf8Encode r2 ++ ((b :: arest).drop w2 ++ c) := by
            conv_rhs => rw [henc2, ← List.append_assoc, List.take_append_drop,
              List.cons_append]
          have hde := decodeRune_encode hv2 hr2 ((b :: arest).drop w2 ++ c)
          rw [← hsplit2, hdec] at hde
          injection hde with hde1 hde2
          omega
      rw [hw]
      refine ⟨[0x5C, 0x78, hexDig (b / 16), hexDig (b % 16)], ?_, ?_⟩
      · rw [quoteBody_cons_hex u hb (by rw [hdec])]
        rfl
      · rw [quoteBody_cons_hex u hb herr2]
        rfl
    · have hw : quoteWidth (b :: (arest ++ c)) = w0 := by
        unfold quoteWidth
        dsimp only
        rw [if_neg hb, hdec]
        dsimp only
        rw [if_neg hw1]
      obtain ⟨hv, hr80, henc⟩ := decodeRune_spec (by omega) hdec hw1
      have hle2 : w0 ≤ arest.length + 1 := by
        rw [hw] at hle
        exact hle
      have hw02 : 2 ≤ w0 := by
        rcases Nat.eq_zero_or_pos w0 with h0 | hpos
        · exfalso
          rw [h0, List.take_zero] at henc
          exact utf8Encode_ne_nil r henc
        · omega
      have htake : (b :: (arest ++ c)).take w0 = (b :: arest).take w0 := by
        rw [← List.cons_append]
        exact List.take_append_of_le_length (by simpa using hle2)
      have hA : b :: arest = utf8Encode r ++ (b :: arest).drop w0 := by
        conv_lhs => rw [← List.take_append_drop w0 (b :: arest)]
        rw [henc, htake]
      have hdA : decodeRune (b :: arest) = (r, w0) := by
        conv_lhs => rw [hA]
        rw [decodeRune_encode hv hr80]
        have hlen : (utf8Encode r).length = w0 := by
          rw [henc, htake, List.length_take, List.length_cons,
            Nat.min_eq_left hle2]
        rw [hlen]
      have e2 : (b :: arest).drop w0 = arest.drop (w0 - 1) := by
        cases w0 with
        | zero => omega
        | succ k => rfl
      refine ⟨escRune u r, ?_, ?_⟩
      · rw [hw, quoteBody_cons_rune u hb hdec hw1]
        have e1 : (arest ++ c).drop (w0 - 1) = arest.drop (w0 - 1) ++ c :=
          List.drop_append_of_le_length (by omega)
        rw [e1, e2]
      · rw [hw, quoteBody_cons_rune u hb hdA hw1, e2]

theorem quoteBody_append_aligned (u : GoUnicode) : ∀ (f : Nat) (a c : List Nat),
    alignedAt f a c = true → quoteBody u (a ++ c) = quoteBody u a ++ quoteBody u c := by
  intro f
  induction f with
  | zero =>
    intro a c h
    cases a with
    | nil => rfl
    | cons b arest => simp [alignedAt] at h
  | succ g ih =>
    intro a c h
    cases a with
    | nil => rfl
    | cons b arest =>
      simp only [alignedAt] at h
      by_cases hcond : quoteWidth (b :: (arest ++ c)) ≤ arest.length + 1 ∧
          1 ≤ quoteWidth (b :: (arest ++ c))
      · rw [if_pos hcond] at h
        obtain ⟨frag, hF1, hF2⟩ := quoteBody_step_prefix u b arest c hcond.1
        rw [List.cons_append, hF1, ih _ _ h, hF2, List.append_assoc]
      · rw [if_neg hcond] at h
        exact absurd h (by simp)

theorem alignedAt_ascii : ∀ (a c : List Nat), (∀ x ∈ a, x < 0x80) →
    alignedAt a.length a c = true := by
  intro a
  induction a with
  | nil => intro c _; rfl
  | cons b arest ih =>
    intro c ha
    have hb : b < 0x80 := ha b (List.mem_cons_self _ _)
    have hw : quoteWidth (b :: (arest ++ c)) = 1 := by
      unfold quoteWidth
      dsimp only
      rw [if_pos hb]
    show alignedAt (arest.length + 1) (b :: arest) c = true
    unfold alignedAt
    rw [hw, if_pos (by omega)]
    exact ih c (fun x hx => ha x (List.mem_cons_of_mem _ hx))

theorem noStraddle_ascii : ∀ (f : Nat) (s : List Nat), (∀ x ∈ s, x < 0x80) →
    noStraddle f s = true := by
  intro f
  induction f with
  | zero =>
    intro s _
    cases s <;> rfl
  | succ g ih =>
    intro s ha
    cases s with
    | nil => rfl
    | cons b rest =>
      show noStraddle (g + 1) (b :: rest) = true
      unfold noStraddle
      by_cases hlen : (b :: rest).length ≤ BUFSIZE
      · rw [if_pos hlen]
      · rw [if_neg hlen, alignedAt_ascii _ _
            (fun x hx => ha x (List.mem_of_mem_take hx)),
          ih _ (fun x hx => ha x (List.mem_of_mem_drop hx))]
        rfl

theorem chunksAux_quote_aligned (u : GoUnicode) : ∀ (f : Nat) (s : List Nat),
    s.length ≤ f → noStraddle f s = true →
    ((chunksAux f s).map (quoteBody u)).flatten = quoteBody u s := by
  intro f
  induction f with
  | zero =>
    intro s h _
    have hnil : s = [] := List.eq_nil_of_length_eq_zero (by omega)
    subst hnil
    rfl
  | succ g ih =>
    intro s h hns
    cases s with
    | nil => rfl
    | cons b rest =>
      unfold noStraddle at hns
      by_cases hlen : (b :: rest).length ≤ BUFSIZE
      · rw [chunksAux_cons, List.take_of_length_le hlen,
          List.drop_eq_nil_of_le hlen, chunksAux_nil_list]
        simp
      · rw [if_neg hlen] at hns
        rw [Bool.and_eq_true] at hns
        rw [chunksAux_cons, List.map_cons, List.flatten_cons,
          ih _ (by simp only [BUFSIZE, List.length_drop, List.length_cons] at h ⊢; omega)
            hns.2,
          ← quoteBody_append_aligned u ((b :: rest).take BUFSIZE).length _ _ hns.1,
          List.take_append_drop]

/-- C10 (amended): the chunk-wise literal text written by `quoteFile`
equals the text that one-shot quoting of the whole contents would
produce whenever no multi-byte UTF-8 sequence straddles a 4096-byte
chunk boundary — that is, whenever the escaper's rune walk lands
exactly on every chunk boundary (`chunksAligned`); in particular this
holds for all-ASCII contents of any length and for contents of at most
`BUFSIZE` (4096) bytes. In general the two texts differ (see the
counterexample), though they always denote the same string (C2). -/
theorem c10_amended_refinement :
    (∀ (u : GoUnicode) (s : List Nat), chunksAligned s = true →
        chunkedBody u s = oneShotBody u s)
    ∧ (∀ (u : GoUnicode) (s : List Nat), (∀ x ∈ s, x < 0x80) →
        chunkedBody u s = oneShotBody u s)
    ∧ (∀ (u : GoUnicode) (s : List Nat), s.length ≤ BUFSIZE →
        chunkedBody u s = oneShotBody u s) := by
  have main : ∀ (u : GoUnicode) (s : List Nat), chunksAligned s = true →
      chunkedBody u s = oneShotBody u s := by
    intro u s h
    exact chunksAux_quote_aligned u s.length s (le_refl _) h
  refine ⟨main, fun u s ha => main u s (noStraddle_ascii _ _ ha), fun u s hl => main u s ?_⟩
  cases s with
  | nil => rfl
  | cons b rest =>
    show noStraddle (rest.length + 1) (b :: rest) = true
    unfold noStraddle
    rw [if_pos hl]

/-- Concrete run of the amended C10 theorem: the three-byte contents
`"Aé"` (one ASCII byte and a two-byte rune, well under one chunk)
satisfy the alignment condition and the two literal bodies coincide. -/
theorem c10_witness :
    chunksAligned [65, 0xC3, 0xA9] = true ∧
    chunkedBody asciiTables [65, 0xC3, 0xA9]
      = oneShotBody asciiTables [65, 0xC3, 0xA9] :=
  ⟨by decide, c10_amended_refinement.1 asciiTables [65, 0xC3, 0xA9] (by decide)⟩
